import Mathlib

/-!
Verification development for the DiskAtlas core: the scan engine
(`src/diskatlas/scanner.py`), the shared tree model
(`src/diskatlas/models.py`) and the squarified-treemap layout engine
(`src/diskatlas/treemap.py`).

The Python code is shallowly embedded:

* machine integers and Python `int` become `Int`/`Nat`;
* Python `float` arithmetic is modelled by exact rationals (`ℚ`); the
  treemap claims are themselves stated only up to floating-point
  rounding, and every division by an exactly-zero denominator (which
  raises `ZeroDivisionError` in Python) is modelled by `Except.error`;
* `os.scandir` listings are modelled by the inductive type `FS`; a
  directory whose listing raises (`PermissionError`, `FileNotFoundError`,
  `OSError`) carries `none`, and an entry whose `stat` fails (or that is
  a skipped symlink) is the constructor `FS.skipped`;
* the two bounded min-heaps built with `heapq` are modelled by the list
  of their elements in insertion order, with `heap[0]` interpreted as
  the lexicographically least element, exactly heapq's documented
  contract; claims never depend on the internal array order of CPython's
  binary heap, only on the retained multiset and on size-sorted views;
* `os.path.abspath` is modelled as the identity (paths in the model are
  already absolute names), `os.sep` as `"/"`, and `str.lower` by ASCII
  case mapping;
* wall-clock time (progress throttling, `elapsed_sec`) is external to
  the model: the progress callback has no effect on any field a claim
  mentions, and `elapsed_sec` is modelled as `0`;
* the cooperative cancellation predicate `cancel_flag` is modelled as a
  function from the poll counter to `Bool`, so an arbitrary sequence of
  answers (in particular "always true" and "always false") is expressible.
-/

namespace DiskAtlas

/-! ## String helpers (Python `str` / `os.path` behaviour used by the scanner) -/

/-- Lexicographic strict order on `List Char` by code point, Python's
string `<` restricted to the characters that occur in the model. -/
def charListLt : List Char → List Char → Bool
  | [], [] => false
  | [], _ :: _ => true
  | _ :: _, [] => false
  | a :: as, b :: bs =>
    if a < b then true
    else if b < a then false
    else charListLt as bs

/-- Python string `<` (code-point lexicographic). -/
def strLt (a b : String) : Bool := charListLt a.data b.data

/-- Python `s.rstrip("\\/")`: drop trailing slashes and backslashes. -/
def pyRstripSlashes (s : String) : String :=
  ⟨(s.data.reverse.dropWhile (fun c => c = '/' ∨ c = '\\')).reverse⟩

/-- Python `os.path.basename`: the suffix after the last path separator
(`/` or `\`; the scanner runs with both separators in play). -/
def pyBasename (s : String) : String :=
  ⟨(s.data.reverse.takeWhile (fun c => c ≠ '/' ∧ c ≠ '\\')).reverse⟩

/-- ASCII case mapping, the fragment of Python `str.lower` the model uses. -/
def pyLower (s : String) : String := ⟨s.data.map Char.toLower⟩

/-- Index of the last occurrence of `x`, scanning from position `i`. -/
def lastIdxFrom (x : Char) : List Char → Nat → Option Nat
  | [], _ => none
  | c :: cs, i =>
    match lastIdxFrom x cs (i + 1) with
    | some j => some j
    | none => if c = x then some i else none

/-- Extension part of `os.path.splitext(name)[1]`: the suffix starting at
the last dot, provided some earlier character of the base name is not a
dot (so `".bashrc"` has no extension), following CPython's `_splitext`. -/
def splitextExt (name : String) : String :=
  let cs := name.data
  match lastIdxFrom '.' cs 0 with
  | none => ""
  | some d =>
    let sepI : Int :=
      match lastIdxFrom '/' cs 0, lastIdxFrom '\\' cs 0 with
      | none, none => -1
      | some j, none => j
      | none, some j => j
      | some j, some k => max j k
    if sepI < (d : Int) ∧
        (cs.enum.any fun p => sepI < (p.1 : Int) ∧ p.1 < d ∧ p.2 ≠ '.') then
      ⟨cs.drop d⟩
    else ""

/-- Key of the extension histogram for a file name: the lower-cased
extension, or the sentinel key for files without one
(`ext = os.path.splitext(entry.name)[1].lower() or "<без расширения>"`). -/
def extKey (name : String) : String :=
  let e := pyLower (splitextExt name)
  if e = "" then "<без расширения>" else e

/-! ## Stable descending sort

`list.sort(key=lambda x: key(x), reverse=True)` and
`sorted(..., key=..., reverse=True)` are stable descending sorts by an
integer key.  `List.mergeSort` does not reduce in the kernel, so the
model uses a stable insertion sort: each element is inserted after the
already-placed elements of equal key, which reproduces Python's
stability. -/

/-- Insert `x` into a descending-sorted list, after entries of equal key. -/
def insertDesc (key : α → Int) (x : α) : List α → List α
  | [] => [x]
  | y :: ys => if key x > key y then x :: y :: ys else y :: insertDesc key x ys

/-- Stable descending sort by integer key. -/
def sortDesc (key : α → Int) (l : List α) : List α :=
  l.foldl (fun acc x => insertDesc key x acc) []

/-! ## Data model (`models.py`) -/

/-- The `Node` dataclass of `models.py`: one filesystem entry of the
size-annotated tree. -/
inductive Node where
  | mk (name : String) (path : String) (isDir : Bool) (size : Int)
      (children : List Node)
deriving Repr

/-- Display name (base name or synthetic label). -/
def Node.name : Node → String
  | .mk n _ _ _ _ => n

/-- Absolute path, or the delimiter-joined root list for the synthetic root. -/
def Node.path : Node → String
  | .mk _ p _ _ _ => p

/-- The `is_dir` flag of the dataclass. -/
def Node.isDir : Node → Bool
  | .mk _ _ d _ _ => d

/-- Total bytes of the entry. -/
def Node.size : Node → Int
  | .mk _ _ _ s _ => s

/-- Ordered list of owned children. -/
def Node.children : Node → List Node
  | .mk _ _ _ _ c => c

/-- The node together with every descendant, preorder. -/
def Node.allNodes : Node → List Node
  | .mk n p d s c => .mk n p d s c :: (c.attach.map fun ⟨x, _⟩ => x.allNodes).flatten

/-- The `ScanResult` dataclass of `models.py`. -/
structure ScanResult where
  root : Node
  ext_stats : List (String × Int × Nat)
  top_files : List (Int × String)
  scanned_paths : List String
  files : Nat
  dirs : Nat
  bytes_scanned : Int
  elapsed_sec : ℚ
deriving Repr

/-! ## Filesystem model -/

/-- One `os.scandir` entry as the scanner observes it.  A directory
carries `some listing` when `os.scandir` succeeds on it and `none` when
listing it raises (`PermissionError` / `FileNotFoundError` / `OSError`).
`skipped` is an entry whose `stat` raises `OSError`, or a symlink with
`follow_symlinks` off: the scanner `continue`s over it. -/
inductive FS where
  | file (name : String) (size : Int)
  | dir (name : String) (listing : Option (List FS))
  | skipped (name : String)
deriving Repr

/-! ## Scanner (`scanner.py`) -/

/-- `DEFAULT_TOP_FILES_PER_DIR` of `scanner.py`. -/
def DEFAULT_TOP_FILES_PER_DIR : Int := 80

/-- `DEFAULT_GLOBAL_TOP_FILES` of `scanner.py`. -/
def DEFAULT_GLOBAL_TOP_FILES : Int := 400

/-- Mutable aggregate state of one `scan_paths` run: the `nonlocal`
counters, the extension dict (an insertion-ordered association list,
Python dict semantics), the global top heap, and the number of
cancellation polls made so far. -/
structure ScanState where
  files : Nat
  dirs : Nat
  bytesScanned : Int
  extStats : List (String × Int × Nat)
  globalTop : List (Int × String)
  polls : Nat
deriving Repr

/-- The state at the top of `scan_paths`, before any traversal. -/
def ScanState.init : ScanState := ⟨0, 0, 0, [], [], 0⟩

/-- One evaluation of `cancel_flag()`: reads the answer for the current
poll index and advances the poll counter. -/
def pollCancel (cancel : Nat → Bool) (st : ScanState) : Bool × ScanState :=
  (cancel st.polls, { st with polls := st.polls + 1 })

/-- `ext_stats[ext] = (b + sz, c + 1)` with `(b, c) = ext_stats.get(ext, (0, 0))`:
update-or-append on the insertion-ordered association list. -/
def extUpdate (m : List (String × Int × Nat)) (k : String) (sz : Int) :
    List (String × Int × Nat) :=
  match m with
  | [] => [(k, sz, 1)]
  | (k₁, b, c) :: rest =>
    if k₁ = k then (k₁, b + sz, c + 1) :: rest
    else (k₁, b, c) :: extUpdate rest k sz

/-- Remove the first occurrence of `a` (the popped heap element). -/
def erasePair : List (Int × String) → (Int × String) → List (Int × String)
  | [], _ => []
  | x :: xs, a => if x = a then xs else erasePair xs a |>.cons x

/-- Remove the first occurrence of `a` from a local-heap list. -/
def eraseTriple : List (Int × String × String) → (Int × String × String) →
    List (Int × String × String)
  | [], _ => []
  | x :: xs, a => if x = a then xs else eraseTriple xs a |>.cons x

/-- Python tuple `<` on `(size, path)` heap items. -/
def pairLt (a b : Int × String) : Bool :=
  a.1 < b.1 ∨ (a.1 = b.1 ∧ strLt a.2 b.2)

/-- `heap[0]` of the global heap: the least `(size, path)` element. -/
def heapMin (x : Int × String) (xs : List (Int × String)) : Int × String :=
  xs.foldl (fun m y => if pairLt y m then y else m) x

/-- The `_push_top` function of `scanner.py`: bounded min-heap insert of
`item` into `heap`, keeping at most `limit` elements, replacing the
minimum only when the new size is strictly larger. -/
def push_top (heap : List (Int × String)) (item : Int × String) (limit : Int) :
    List (Int × String) :=
  if limit ≤ 0 then heap
  else if (heap.length : Int) < limit then heap ++ [item]
  else
    match heap with
    | [] => heap
    | x :: xs =>
      let m := heapMin x xs
      if item.1 > m.1 then item :: erasePair (x :: xs) m
      else heap

/-- Python tuple `<` on `(size, name, path)` local-heap items. -/
def tripleLt (a b : Int × String × String) : Bool :=
  a.1 < b.1 ∨ (a.1 = b.1 ∧ (strLt a.2.1 b.2.1 ∨ (a.2.1 = b.2.1 ∧ strLt a.2.2 b.2.2)))

/-- `local_top[0]`: the least `(size, name, path)` element. -/
def heapMin3 (x : Int × String × String) (xs : List (Int × String × String)) :
    Int × String × String :=
  xs.foldl (fun m y => if tripleLt y m then y else m) x

/-- Accumulators of one `scan_dir` activation: the node's children so
far (subdirectories, in encounter order), its size so far, the bounded
per-directory heap `local_top`, `local_files_count`, `local_other_bytes`,
and the shared scan state. -/
structure DirAcc where
  children : List Node
  size : Int
  localTop : List (Int × String × String)
  lfc : Int
  lob : Int
  st : ScanState

/-- Fresh accumulators at the top of a `scan_dir` activation. -/
def DirAcc.init (st : ScanState) : DirAcc := ⟨[], 0, [], 0, 0, st⟩

/-- Display name of a directory node:
`os.path.basename(dir_path.rstrip("\\/")) or dir_path`. -/
def dirNodeName (dirPath : String) : String :=
  let b := pyBasename (pyRstripSlashes dirPath)
  if b = "" then dirPath else b

/-- The node `scan_dir` returns for a directory it could not (or was not
allowed to) traverse: `is_dir = True`, `size = 0`, no children. -/
def emptyDirNode (dirPath : String) : Node :=
  .mk (dirNodeName dirPath) dirPath true 0 []

/-- Lines 100–109 of `scanner.py`: route one file of size `sz` into the
per-directory heap or into `local_other_bytes`.  Faithful to the source,
including the fact that the `heapreplace` branch does **not** add the
evicted element's size to `local_other_bytes`. -/
def localRoute (K : Int) (lt : List (Int × String × String)) (lob : Int)
    (sz : Int) (nm pth : String) : List (Int × String × String) × Int :=
  if K > 0 then
    if (lt.length : Int) < K then (lt ++ [(sz, nm, pth)], lob)
    else
      match lt with
      | [] => (lt, lob)
      | x :: xs =>
        let m := heapMin3 x xs
        if sz > m.1 then ((sz, nm, pth) :: eraseTriple (x :: xs) m, lob)
        else (lt, lob + sz)
  else (lt, lob + sz)

/-- Lines 115–128 of `scanner.py`: after the entry loop, append the
retained files sorted by size descending, then the synthetic overflow
node when both the excluded-file count and the excluded byte total are
positive, and build the directory's node. -/
def finishDir (dirPath : String) (acc : DirAcc) : Node :=
  let fileNodes :=
    (sortDesc (fun t => t.1) acc.localTop).map fun t =>
      Node.mk t.2.1 t.2.2 false t.1 []
  let otherCount : Int := max 0 (acc.lfc - acc.localTop.length)
  let overflow :=
    if otherCount > 0 ∧ acc.lob > 0 then
      [Node.mk ("… другие файлы (" ++ toString otherCount ++ ")") dirPath false
        acc.lob []]
    else []
  .mk (dirNodeName dirPath) dirPath true acc.size
    (acc.children ++ fileNodes ++ overflow)

mutual
/-- Number of loop iterations the scanner can spend below one entry,
used as fuel for the entry loop. -/
def FS.weight : FS → Nat
  | .file _ _ => 1
  | .skipped _ => 1
  | .dir _ none => 1
  | .dir _ (some l) => 1 + FS.weightList l

/-- Number of loop iterations the scanner can spend on a listing. -/
def FS.weightList : List FS → Nat
  | [] => 1
  | e :: rest => 1 + e.weight + FS.weightList rest
end

/-- The entry loop of `scan_dir` (lines 64–111), with an explicit fuel
argument so the recursion is structural (and so kernel-reducible on
concrete inputs).  Each iteration first polls the cancellation flag
(`break` falls through to `finishDir` in the caller), then dispatches on
the entry: skipped entries are passed over, a subdirectory is scanned
recursively (its own activation polls the flag once, returns an empty
node when its listing raises, and otherwise finishes via `finishDir`),
and a file updates the counters, histogram and heaps.  Every recursive
call is on a list of strictly smaller weight, so any fuel of at least
`FS.weightList entries` gives the loop's true value
(`scanEntriesF_congr`); the fuel-exhausted branch is unreachable from
`scanEntries`. -/
def scanEntriesF (cancel : Nat → Bool) (K Kg : Int) :
    Nat → String → List FS → DirAcc → DirAcc
  | 0, _, _, acc => acc
  | fuel + 1, dirPath, entries, acc =>
    match entries with
    | [] => acc
    | e :: rest =>
      let (c, st) := pollCancel cancel acc.st
      if c then { acc with st := st }
      else
        match e with
        | .skipped _ =>
          scanEntriesF cancel K Kg fuel dirPath rest { acc with st := st }
        | .dir nm sub =>
          let st₁ := { st with dirs := st.dirs + 1 }
          let childPath := dirPath ++ "/" ++ nm
          let (c₂, st₂) := pollCancel cancel st₁
          let (child, st₃) :=
            if c₂ then (emptyDirNode childPath, st₂)
            else
              match sub with
              | none => (emptyDirNode childPath, st₂)
              | some l =>
                let r := scanEntriesF cancel K Kg fuel childPath l (DirAcc.init st₂)
                (finishDir childPath r, r.st)
          scanEntriesF cancel K Kg fuel dirPath rest
            { acc with
              children := acc.children ++ [child]
              size := acc.size + child.size
              st := st₃ }
        | .file nm sz =>
          let pth := dirPath ++ "/" ++ nm
          let st₁ :=
            { st with
              files := st.files + 1
              bytesScanned := st.bytesScanned + sz
              extStats := extUpdate st.extStats (extKey nm) sz
              globalTop := push_top st.globalTop (sz, pth) Kg }
          let (lt, lob) := localRoute K acc.localTop acc.lob sz nm pth
          scanEntriesF cancel K Kg fuel dirPath rest
            { acc with
              size := acc.size + sz
              localTop := lt
              lfc := acc.lfc + 1
              lob := lob
              st := st₁ }

/-- The entry loop of `scan_dir`, at its true value: `FS.weightList
entries` bounds the number of loop iterations reachable from `entries`. -/
def scanEntries (cancel : Nat → Bool) (K Kg : Int) (dirPath : String)
    (entries : List FS) (acc : DirAcc) : DirAcc :=
  scanEntriesF cancel K Kg (FS.weightList entries) dirPath entries acc

/-- One root-level `scan_dir(p)` call of the `scan_paths` loop: polls
the flag once, yields the empty node when the root cannot be listed
(in particular when the path does not exist: `FileNotFoundError` is
absorbed by the `except` clause of lines 112–113), and otherwise runs
the entry loop and finishes the node. -/
def scanDirRoot (cancel : Nat → Bool) (K Kg : Int)
    (resolve : String → Option (List FS)) (p : String) (st : ScanState) :
    Node × ScanState :=
  let (c, st₁) := pollCancel cancel st
  if c then (emptyDirNode p, st₁)
  else
    match resolve p with
    | none => (emptyDirNode p, st₁)
    | some l =>
      let r := scanEntries cancel K Kg p l (DirAcc.init st₁)
      (finishDir p r, r.st)

/-- The root loop of `scan_paths` (lines 131–136): scan each root in
order, breaking out when the flag answers true, and accumulate the
synthetic root's children and size. -/
def scanRoots (cancel : Nat → Bool) (K Kg : Int)
    (resolve : String → Option (List FS)) (ps : List String)
    (children : List Node) (size : Int) (st : ScanState) :
    List Node × Int × ScanState :=
  match ps with
  | [] => (children, size, st)
  | p :: rest =>
    let (c, st₁) := pollCancel cancel st
    if c then (children, size, st₁)
    else
      let (child, st₂) := scanDirRoot cancel K Kg resolve p st₁
      scanRoots cancel K Kg resolve rest (children ++ [child])
        (size + child.size) st₂

/-- Root-path normalization of lines 31–32: drop falsy entries
(`abspath` is modelled as the identity), and give a bare drive like
`C:` a trailing separator. -/
def normalizePaths (paths : List String) : List String :=
  (paths.filter (fun p => p ≠ "")).map fun p =>
    if p.data.length = 3 ∧ p.data.get? 1 = some ':' then
      pyRstripSlashes p ++ "/"
    else p

/-- The `scan_paths` entry point of `scanner.py`.  `resolve` plays the
role of `os.scandir` on the root paths.  The `Except` layer carries the
one uncaught exception the function can raise: with an empty (or
all-falsy) root list, line 33 evaluates `paths[0]` and dies with an
`IndexError` before any traversal. -/
def scan_paths (resolve : String → Option (List FS)) (paths : List String)
    (cancel : Nat → Bool)
    (K : Int := DEFAULT_TOP_FILES_PER_DIR)
    (Kg : Int := DEFAULT_GLOBAL_TOP_FILES) : Except Unit ScanResult :=
  let ps := normalizePaths paths
  match ps with
  | [] => .error ()
  | p₀ :: _ =>
    let name :=
      if ps.length > 1 then "Этот компьютер"
      else
        let b := pyBasename (pyRstripSlashes p₀)
        if b = "" then p₀ else b
    let (children, size, st) :=
      scanRoots cancel K Kg resolve ps [] 0 ScanState.init
    let root : Node := .mk name (String.intercalate ";" ps) true size children
    .ok
      { root := root
        ext_stats := st.extStats
        top_files := sortDesc (fun t => t.1) st.globalTop
        scanned_paths := ps
        files := st.files
        dirs := st.dirs
        bytes_scanned := st.bytesScanned
        elapsed_sec := 0 }

mutual
/-- The `(size, path)` pairs of the files the scanner visits below one
entry, in depth-first encounter order (skipped entries and unlistable
directories contribute nothing, matching lines 70–79 and 112–113). -/
def filesUnder (dirPath : String) : FS → List (Int × String)
  | .file nm sz => [(sz, dirPath ++ "/" ++ nm)]
  | .skipped _ => []
  | .dir _ none => []
  | .dir nm (some l) => filesUnderList (dirPath ++ "/" ++ nm) l

/-- The `(size, path)` pairs of the files visited in one listing, in order. -/
def filesUnderList (dirPath : String) : List FS → List (Int × String)
  | [] => []
  | e :: rest => filesUnder dirPath e ++ filesUnderList dirPath rest
end

/-- All files a full (uncancelled) scan of the given roots visits, in
encounter order. -/
def scanFiles (resolve : String → Option (List FS)) (ps : List String) :
    List (Int × String) :=
  ps.flatMap fun p =>
    match resolve p with
    | none => []
    | some l => filesUnderList p l

/-- Total bytes recorded in the extension histogram. -/
def extBytesTotal (m : List (String × Int × Nat)) : Int :=
  (m.map fun e => e.2.1).sum

/-- Total file count recorded in the extension histogram. -/
def extCountTotal (m : List (String × Int × Nat)) : Nat :=
  (m.map fun e => e.2.2).sum

/-- The node an uncancelled scan produces for the directory `(p, sub)`:
the directory's subtree as a pure function of its path and listing.
`scanEntries` threads the global state through the recursion, but the
node it builds does not depend on that state (`scanEntriesF_st_irrel`). -/
def scanTreeNode (K Kg : Int) (p : String) (sub : Option (List FS)) : Node :=
  match sub with
  | none => emptyDirNode p
  | some l =>
    finishDir p
      (scanEntries (fun _ => false) K Kg p l (DirAcc.init ScanState.init))

/-- Paths of the subdirectory entries of a listing, in encounter order. -/
def dirPathsOf (p : String) (sub : Option (List FS)) : List String :=
  match sub with
  | none => []
  | some l =>
    l.flatMap fun e =>
      match e with
      | .dir nm _ => [p ++ "/" ++ nm]
      | _ => []

/-- The fixed children layout claimed for every directory node: the
subdirectory nodes first (their paths listed by `subPaths`, in encounter
order), then the retained file nodes sorted by size non-increasing, then
at most one synthetic overflow node, last. -/
def orderedChildren (n : Node) (subPaths : List String) : Prop :=
  ∃ ds fl ov,
    n.children = ds ++ fl ++ ov
    ∧ ds.map Node.path = subPaths
    ∧ (∀ d ∈ ds, d.isDir = true)
    ∧ (∀ f ∈ fl, f.isDir = false)
    ∧ fl.Pairwise (fun a b => b.size ≤ a.size)
    ∧ (ov = [] ∨ ∃ o, ov = [o] ∧ o.isDir = false)

/-! ## Treemap layout engine (`treemap.py`)

Python `float` arithmetic is modelled by exact rationals.  Python raises
`ZeroDivisionError` whenever a float is divided by exactly `0.0`; the
model's `pyDiv` returns `Except.error` in exactly that case.  The one
use of `float("inf")` (the worst ratio of an empty row) is modelled by
`⊤ : WithTop ℚ`, whose order agrees with IEEE comparisons against
infinity on finite values. -/

/-- The `Rect` dataclass of `treemap.py`. -/
structure Rect where
  x : ℚ
  y : ℚ
  w : ℚ
  h : ℚ
deriving Repr, DecidableEq

/-- Area of a rectangle (statement helper). -/
def Rect.area (r : Rect) : ℚ := r.w * r.h

/-- Python float division: raises on an exactly-zero denominator. -/
def pyDiv (a b : ℚ) : Except Unit ℚ :=
  if b = 0 then .error () else .ok (a / b)

/-- The `_normalize_sizes` function: scale non-negative sizes so they
sum to `area` (with the `or 1` guard when every size is non-positive). -/
def normalizeSizes (nodes : List Node) (area : ℚ) : List ℚ :=
  let total : Int := (nodes.map fun n => max 0 n.size).sum
  let total : ℚ := if total = 0 then 1 else (total : ℚ)
  nodes.map fun n => ((max 0 n.size : Int) : ℚ) * area / total

/-- The `_worst` function: worst aspect ratio of a row of areas laid
against a side of length `w`; `inf` for the empty row. -/
def worst (row : List ℚ) (w : ℚ) : Except Unit (WithTop ℚ) :=
  match row with
  | [] => .ok ⊤
  | a :: rest =>
    let s := (a :: rest).sum
    let rmax := rest.foldl max a
    let rmin := rest.foldl min a
    let w2 := w * w
    match pyDiv (w2 * rmax) (s * s) with
    | .error e => .error e
    | .ok t₁ =>
      match pyDiv (s * s) (w2 * rmin) with
      | .error e => .error e
      | .ok t₂ => .ok ((max t₁ t₂ : ℚ) : WithTop ℚ)

/-- Horizontal arm of `_layout_row`: place areas left to right at height
`h`, guarding each width against a zero row height. -/
def layoutH (row : List ℚ) (x y h : ℚ) : List Rect :=
  match row with
  | [] => []
  | a :: rest =>
    let w := if h > 0 then a / h else 0
    ⟨x, y, w, h⟩ :: layoutH rest (x + w) y h

/-- Vertical arm of `_layout_row`: place areas top to bottom at width `w`. -/
def layoutV (row : List ℚ) (x y w : ℚ) : List Rect :=
  match row with
  | [] => []
  | a :: rest =>
    let h := if w > 0 then a / w else 0
    ⟨x, y, w, h⟩ :: layoutV rest x (y + h) w

/-- The `_layout_row` function: lay a row of areas along the full width
(or height) of `rect` and return the rectangles together with the
remaining rectangle, its consumed side clamped at zero. -/
def layoutRow (row : List ℚ) (rect : Rect) (horizontal : Bool) :
    List Rect × Rect :=
  let s := row.sum
  if horizontal then
    let h := if rect.w > 0 then s / rect.w else 0
    (layoutH row rect.x rect.y h,
      ⟨rect.x, rect.y + h, rect.w, max 0 (rect.h - h)⟩)
  else
    let w := if rect.h > 0 then s / rect.h else 0
    (layoutV row rect.x rect.y w,
      ⟨rect.x + w, rect.y, max 0 (rect.w - w), rect.h⟩)

/-- `min(remaining.w, remaining.h) or 1.0`. -/
def shortSide (r : Rect) : ℚ :=
  let m := min r.w r.h
  if m = 0 then 1 else m

/-- The `while i < len(nodes)` loop of `squarify` (lines 58–78),
together with the trailing `if row:` layout.  `rest` is the unprocessed
`(area, node)` suffix, `row` the current row, `out` the accumulated
output.  A new item is appended while the worst ratio does not increase;
otherwise the row is laid out along the full width when
`remaining.w >= remaining.h` (else the full height) and the same item is
retried against the shrunken rectangle. -/
def sqLoop (rest row : List (ℚ × Node)) (remaining : Rect)
    (out : List (Rect × Node)) : Except Unit (List (Rect × Node)) :=
  match rest with
  | [] =>
    if row.isEmpty then .ok out
    else
      let horizontal := remaining.w ≥ remaining.h
      let (laid, _) := layoutRow (row.map Prod.fst) remaining horizontal
      .ok (out ++ laid.zip (row.map Prod.snd))
  | (a, n) :: rest₁ =>
    if row.isEmpty then sqLoop rest₁ (row ++ [(a, n)]) remaining out
    else
      let s := shortSide remaining
      match worst ((row ++ [(a, n)]).map Prod.fst) s with
      | .error e => .error e
      | .ok wNew =>
        match worst (row.map Prod.fst) s with
        | .error e => .error e
        | .ok wOld =>
          if wNew > wOld then
            let horizontal := remaining.w ≥ remaining.h
            let (laid, rem) := layoutRow (row.map Prod.fst) remaining horizontal
            sqLoop ((a, n) :: rest₁) [] rem (out ++ laid.zip (row.map Prod.snd))
          else sqLoop rest₁ (row ++ [(a, n)]) remaining out
termination_by 2 * rest.length + (if row.isEmpty then 0 else 1)
decreasing_by
  all_goals simp_all [List.isEmpty_iff]
  all_goals omega

/-- The `squarify` entry point of `treemap.py`: keep the positive-size
children, sort them by size descending (stably), normalize their sizes
to the rectangle's area, and run the row-building loop. -/
def squarify (nodes : List Node) (x y w h : ℚ) :
    Except Unit (List (Rect × Node)) :=
  let ns := sortDesc Node.size (nodes.filter fun n => n.size > 0)
  let areas := normalizeSizes ns (w * h)
  sqLoop (areas.zip ns) [] ⟨x, y, w, h⟩ []

/-! ## The spec's layout algorithm (§4.3), for the refinement claim

These definitions transcribe the specification's own wording of the
squarified algorithm: sort descending, normalize sizes to areas, build
rows greedily with the worst-ratio formula evaluated against the shorter
side of the remaining rectangle, append while the worst ratio does not
increase, and lay each finalized row across the remaining rectangle with
every item exactly filling the row's thickness.  The direction in which
a finalized row is laid is the disputed sentence, so it is a parameter
`dirH` (`dirH w h = true` lays the row along the width). -/

/-- The spec's worst-ratio function:
`max((w² · max_area) / s², s² / (w² · min_area))`, infinite for an empty
row, raising on an exactly-zero denominator as the engine does. -/
def worstSpec (areas : List ℚ) (w : ℚ) : Except Unit (WithTop ℚ) :=
  match areas.max?, areas.min? with
  | some mx, some mn =>
    let s := areas.sum
    match pyDiv (w * w * mx) (s * s) with
    | .error e => .error e
    | .ok t₁ =>
      match pyDiv (s * s) (w * w * mn) with
      | .error e => .error e
      | .ok t₂ => .ok ((max t₁ t₂ : ℚ) : WithTop ℚ)
  | _, _ => .ok ⊤

/-- Spec row layout along the width: items contiguous along x, each of
width `area / thickness`, degenerate thickness giving degenerate items. -/
def layoutHSpec (row : List ℚ) (x y t : ℚ) : List Rect :=
  match row with
  | [] => []
  | a :: rest =>
    let w := if t > 0 then a / t else 0
    ⟨x, y, w, t⟩ :: layoutHSpec rest (x + w) y t

/-- Spec row layout along the height: items contiguous along y. -/
def layoutVSpec (row : List ℚ) (x y t : ℚ) : List Rect :=
  match row with
  | [] => []
  | a :: rest =>
    let h := if t > 0 then a / t else 0
    ⟨x, y, t, h⟩ :: layoutVSpec rest x (y + h) t

/-- Spec row layout: the row spans the full width (resp. height) of the
remaining rectangle, its thickness is `sum / span`, and the remaining
rectangle shrinks by the thickness along the consumed axis. -/
def layoutRowSpec (row : List ℚ) (rect : Rect) (horizontal : Bool) :
    List Rect × Rect :=
  let s := row.sum
  if horizontal then
    let t := if rect.w > 0 then s / rect.w else 0
    (layoutHSpec row rect.x rect.y t,
      ⟨rect.x, rect.y + t, rect.w, max 0 (rect.h - t)⟩)
  else
    let t := if rect.h > 0 then s / rect.h else 0
    (layoutVSpec row rect.x rect.y t,
      ⟨rect.x + t, rect.y, max 0 (rect.w - t), rect.h⟩)

/-- The spec's greedy row-building loop, with the laying direction of a
finalized row supplied by `dirH`. -/
def sqLoopSpec (dirH : ℚ → ℚ → Bool) (rest row : List (ℚ × Node))
    (remaining : Rect) (out : List (Rect × Node)) :
    Except Unit (List (Rect × Node)) :=
  match rest with
  | [] =>
    if row.isEmpty then .ok out
    else
      let (laid, _) :=
        layoutRowSpec (row.map Prod.fst) remaining
          (dirH remaining.w remaining.h)
      .ok (out ++ laid.zip (row.map Prod.snd))
  | (a, n) :: rest₁ =>
    if row.isEmpty then sqLoopSpec dirH rest₁ (row ++ [(a, n)]) remaining out
    else
      let s := shortSide remaining
      match worstSpec ((row ++ [(a, n)]).map Prod.fst) s with
      | .error e => .error e
      | .ok wNew =>
        match worstSpec (row.map Prod.fst) s with
        | .error e => .error e
        | .ok wOld =>
          if wNew > wOld then
            let (laid, rem) :=
              layoutRowSpec (row.map Prod.fst) remaining
                (dirH remaining.w remaining.h)
            sqLoopSpec dirH ((a, n) :: rest₁) [] rem
              (out ++ laid.zip (row.map Prod.snd))
          else sqLoopSpec dirH rest₁ (row ++ [(a, n)]) remaining out
termination_by 2 * rest.length + (if row.isEmpty then 0 else 1)
decreasing_by
  all_goals simp_all [List.isEmpty_iff]
  all_goals omega

/-- The spec's normalization step: `size / total_size * rect_area`,
on the already-filtered positive children. -/
def normalizeSpec (nodes : List Node) (area : ℚ) : List ℚ :=
  nodes.map fun n => (n.size : ℚ) * area / ((nodes.map Node.size).sum : Int)

/-- The spec's squarify algorithm, §4.3 steps 1–6, with the row-laying
direction as the parameter `dirH`. -/
def squarifySpec (dirH : ℚ → ℚ → Bool) (nodes : List Node) (x y w h : ℚ) :
    Except Unit (List (Rect × Node)) :=
  let ns := sortDesc Node.size (nodes.filter fun n => n.size > 0)
  let areas := normalizeSpec ns (w * h)
  sqLoopSpec dirH (areas.zip ns) [] ⟨x, y, w, h⟩ []

/-- The claim's direction sentence: a finalized row is laid out along
whichever dimension of the remaining rectangle is shorter (along the
width exactly when the width is strictly the shorter one; a tie lays
along the height, which only strengthens the counterexample since the
disputed instance is not a tie). -/
def claimRowDir (w h : ℚ) : Bool := decide (w < h)

/-- The direction the source actually uses: `horizontal = (w >= h)`,
laying every finalized row along the longer (or equal) dimension. -/
def sourceRowDir (w h : ℚ) : Bool := decide (h ≤ w)

/-! ## Concrete fixtures used by witnesses and counterexamples -/

/-- A file leaf for layout tests. -/
def leafNode (nm : String) (s : Int) : Node := .mk nm nm false s []

/-- A root `"r"` holding two files of sizes 1 and 2, encountered in
ascending size order. -/
def fsAB : String → Option (List FS) := fun p =>
  if p = "r" then some [.file "a" 1, .file "b" 2] else none

/-- A root `"r"` holding three files of sizes 1, 2, 3, encountered in
ascending size order. -/
def fsABC : String → Option (List FS) := fun p =>
  if p = "r" then some [.file "a" 1, .file "b" 2, .file "c" 3] else none

/-- A root `"r"` with an upper-case extension, a subdirectory with a
file and a skipped entry, and an unlistable subdirectory. -/
def fsNested : String → Option (List FS) := fun p =>
  if p = "r" then
    some [.file "x.TXT" 5,
          .dir "d" (some [.file "y" 7, .skipped "s"]),
          .dir "e" none]
  else none

/-! ## C1 and C2: per-directory retention and size conservation

Lines 100–109 of `scanner.py` route a file into `local_other_bytes` only
when it never enters the per-directory heap.  A file that is *evicted*
from the heap by `heapq.heapreplace` (line 105) is not added to
`local_other_bytes`, so its bytes appear in the directory's `size` but
in no child, and the overflow child of lines 120–128 is suppressed
entirely when `local_other_bytes` stays 0. -/

/-- C1: the claim `node.size = Σ child.size` for every directory node
and every interleaving fails.  Scanning a directory whose files arrive
in ascending size order with `top_files_per_dir = 1` produces a
directory node of size 3 whose children's sizes sum to 2: the size-1
file evicted from the heap is dropped from every child, including the
overflow child (which is not even emitted). -/
theorem scan_dir_size_exceeds_children_sum_on_eviction :
    (scan_paths fsAB ["r"] (fun _ => false) 1 400).map
        (fun res => res.root.children.map fun d =>
          (d.size, (d.children.map Node.size).sum))
      = .ok [(3, 2)] := rfl

/-- C2: a directory with more files than `top_files_per_dir`, scanned in
ascending size order, yields *no* overflow child at all: with K = 2 and
files of sizes 1, 2, 3, the retained children are exactly `c` (3) and
`b` (2), the excluded size-1 file is in the directory total (6) but in
no child, and no synthetic overflow node appears, contradicting the
claimed "exactly one synthetic overflow child whose size equals the sum
of the excluded files' sizes". -/
theorem scan_dir_missing_overflow_child :
    (scan_paths fsABC ["r"] (fun _ => false) 2 400).map
        (fun res => res.root.children.map fun d =>
          (d.size, d.children.map fun c => (c.name, c.size)))
      = .ok [(6, [("c", 3), ("b", 2)])] := rfl

/-! ## C3: invalid input is not surfaced -/

/-- C3 (counterexample): scanning the non-existent root `"gone"` returns
a plain, success-shaped `ScanResult` — the `FileNotFoundError` raised by
`os.scandir` is absorbed by the `except` clause of lines 112–113 and the
root is given one empty zero-size child — contradicting the claim that a
non-existent path is surfaced to the caller before traversal. -/
theorem scan_missing_root_returns_ok :
    scan_paths fsAB ["gone"] (fun _ => false) 80 400 =
      .ok { root := .mk "gone" "gone" true 0 [.mk "gone" "gone" true 0 []],
            ext_stats := [], top_files := [], scanned_paths := ["gone"],
            files := 0, dirs := 0, bytes_scanned := 0, elapsed_sec := 0 } := rfl

/-- C3 (amended): an empty (or all-falsy) root list makes `scan_paths`
die on `paths[0]` with an uncaught `IndexError` before any traversal —
an unhandled exception, not a report naming the invalid path — while a
non-existent root path is *not* surfaced at all: it is absorbed into an
empty zero-size child node and the scan returns a normal `ScanResult`. -/
theorem scan_invalid_input_amended :
    (∀ (resolve : String → Option (List FS)) cancel K Kg paths,
      normalizePaths paths = [] →
        scan_paths resolve paths cancel K Kg = .error ())
    ∧ (∀ (resolve : String → Option (List FS)) K Kg p,
        normalizePaths [p] = [p] → resolve p = none →
          scan_paths resolve [p] (fun _ => false) K Kg =
            .ok { root := .mk (dirNodeName p) (String.intercalate ";" [p])
                    true 0 [emptyDirNode p]
                  ext_stats := [], top_files := [], scanned_paths := [p]
                  files := 0, dirs := 0, bytes_scanned := 0
                  elapsed_sec := 0 }) := by
  constructor
  · intro resolve cancel K Kg paths hps
    simp [scan_paths, hps]
  · intro resolve K Kg p hps hnone
    simp [scan_paths, hps, scanRoots, scanDirRoot, pollCancel, hnone,
      dirNodeName, sortDesc, ScanState.init, emptyDirNode, Node.size]

/-- Witness for C3 (amended): both branches at concrete inputs. -/
theorem scan_invalid_input_amended_witness :
    scan_paths fsAB [""] (fun _ => false) 80 400 = .error ()
    ∧ scan_paths (fun _ => none) ["gone"] (fun _ => false) 80 400 =
        .ok { root := .mk (dirNodeName "gone")
                (String.intercalate ";" ["gone"]) true 0 [emptyDirNode "gone"]
              ext_stats := [], top_files := [], scanned_paths := ["gone"]
              files := 0, dirs := 0, bytes_scanned := 0
              elapsed_sec := 0 } :=
  ⟨scan_invalid_input_amended.1 fsAB (fun _ => false) 80 400 [""] rfl,
    scan_invalid_input_amended.2 (fun _ => none) 80 400 "gone" rfl rfl⟩

/-! ## C4: cancellation is not a distinguished outcome -/

/-- C4 (counterexample): with the cancellation predicate already true
before any entry is processed, `scan_paths` returns an ordinary
success-shaped `ScanResult` with an empty-children root and zero
counters — there is no cancelled signal of any kind in the return value,
contradicting the claimed distinguishable cancelled outcome. -/
theorem cancelled_scan_returns_plain_ok :
    scan_paths fsAB ["r"] (fun _ => true) 80 400 =
      .ok { root := .mk "r" "r" true 0 [], ext_stats := [], top_files := [],
            scanned_paths := ["r"], files := 0, dirs := 0,
            bytes_scanned := 0, elapsed_sec := 0 } := rfl

/-- C4 (amended): whenever the cancellation predicate answers true from
the first poll on, `scan_paths` returns a normal `ScanResult` whose root
has no children and whose counters are all zero — exactly the shape of a
successful scan, with no explicit cancelled signal. -/
theorem cancelled_scan_amended (resolve : String → Option (List FS))
    (K Kg : Int) (paths : List String) (p : String) (ps : List String)
    (hps : normalizePaths paths = p :: ps) :
    scan_paths resolve paths (fun _ => true) K Kg =
      .ok { root := .mk
              (if (p :: ps).length > 1 then "Этот компьютер" else dirNodeName p)
              (String.intercalate ";" (p :: ps)) true 0 []
            ext_stats := [], top_files := [], scanned_paths := p :: ps
            files := 0, dirs := 0, bytes_scanned := 0
            elapsed_sec := 0 } := by
  simp [scan_paths, hps, scanRoots, pollCancel, dirNodeName, sortDesc,
    ScanState.init]

/-- Witness for C4 (amended) at a concrete filesystem and root list. -/
theorem cancelled_scan_amended_witness :
    scan_paths fsAB ["r"] (fun _ => true) 80 400 =
      .ok { root := .mk
              (if (("r" : String) :: []).length > 1 then "Этот компьютер"
                else dirNodeName "r")
              (String.intercalate ";" ["r"]) true 0 []
            ext_stats := [], top_files := [], scanned_paths := ["r"]
            files := 0, dirs := 0, bytes_scanned := 0
            elapsed_sec := 0 } :=
  cancelled_scan_amended fsAB 80 400 ["r"] "r" [] rfl

/-! ## C5: degenerate layout inputs -/

/-- C5 (counterexample): `squarify` *does* raise on a zero-area target
rectangle when at least two positive-size children are present: every
normalized area is exactly `0.0`, and `_worst` divides by `s * s = 0.0`
(`ZeroDivisionError`), so the claimed "never raises, returns an empty
list" fails. -/
theorem squarify_zero_area_raises :
    squarify [leafNode "a" 1, leafNode "b" 1] 0 0 0 1 = .error () := by
  norm_num [squarify, sortDesc, insertDesc, leafNode, Node.size,
    normalizeSizes, sqLoop, shortSide, worst, pyDiv, List.filter]

/-- C5 (amended): for an empty children list, or children whose sizes
are all non-positive, `squarify` returns the empty list without raising,
for every target rectangle (including zero-area ones); the zero-area
rectangle by itself is not safe when positive-size children remain. -/
theorem squarify_no_positive_children_empty (nodes : List Node)
    (x y w h : ℚ) (hfil : nodes.filter (fun n => n.size > 0) = []) :
    squarify nodes x y w h = .ok [] := by
  simp [squarify, hfil, sortDesc, normalizeSizes, sqLoop]

/-- Witness for C5 (amended): a call whose only child has negative size
(on a positive-area rectangle) yields the empty layout. -/
theorem squarify_no_positive_children_empty_witness :
    squarify [leafNode "z" (-5)] 1 2 3 4 = .ok [] :=
  squarify_no_positive_children_empty [leafNode "z" (-5)] 1 2 3 4 (by rfl)

/-! ## C8: extension-histogram totals -/

theorem pollCancel_eq (cancel : Nat → Bool) (st : ScanState) :
    pollCancel cancel st = (cancel st.polls, { st with polls := st.polls + 1 }) :=
  rfl

theorem char_toLower_idem (c : Char) : c.toLower.toLower = c.toLower := by
  have key : ∀ n : Nat, n.isValidChar → (Char.ofNat n).toNat = n := by
    intro n h
    simp [Char.ofNat, h, Char.toNat, Char.ofNatAux, UInt32.toNat, UInt32.ofNatCore]
  unfold Char.toLower
  by_cases h : c.toNat ≥ 65 ∧ c.toNat ≤ 90
  · have hv : (Char.ofNat (c.toNat + 32)).toNat = c.toNat + 32 := by
      apply key
      left
      omega
    simp only [h, and_true, true_and, if_true, hv]
    rw [if_neg]
    omega
  · simp only [h, if_false]

theorem pyLower_idem (s : String) : pyLower (pyLower s) = pyLower s := by
  cases s with
  | mk data =>
    simp only [pyLower, List.map_map]
    congr 1
    apply List.map_congr_left
    intro c _
    exact char_toLower_idem c

theorem pyLower_extKey (nm : String) : pyLower (extKey nm) = extKey nm := by
  unfold extKey
  by_cases h : pyLower (splitextExt nm) = ""
  · simp only [h, if_true]
    decide
  · simp only [h, if_false]
    exact pyLower_idem _

theorem extUpdate_bytesTotal (m : List (String × Int × Nat)) (k : String)
    (sz : Int) : extBytesTotal (extUpdate m k sz) = extBytesTotal m + sz := by
  induction m with
  | nil => simp [extUpdate, extBytesTotal]
  | cons e rest ih =>
    obtain ⟨k₁, b, c⟩ := e
    by_cases hk : k₁ = k
    · simp [extUpdate, hk, extBytesTotal]
      ring
    · simp [extUpdate, hk, extBytesTotal] at ih ⊢
      omega

theorem extUpdate_countTotal (m : List (String × Int × Nat)) (k : String)
    (sz : Int) : extCountTotal (extUpdate m k sz) = extCountTotal m + 1 := by
  induction m with
  | nil => simp [extUpdate, extCountTotal]
  | cons e rest ih =>
    obtain ⟨k₁, b, c⟩ := e
    by_cases hk : k₁ = k
    · simp [extUpdate, hk, extCountTotal]
      omega
    · simp [extUpdate, hk, extCountTotal] at ih ⊢
      omega

theorem extUpdate_keys (m : List (String × Int × Nat)) (k : String) (sz : Int)
    (hm : ∀ e ∈ m, pyLower e.1 = e.1) (hk : pyLower k = k) :
    ∀ e ∈ extUpdate m k sz, pyLower e.1 = e.1 := by
  induction m with
  | nil =>
    intro e he
    simp [extUpdate] at he
    subst he
    exact hk
  | cons e₀ rest ih =>
    obtain ⟨k₁, b, c⟩ := e₀
    intro e he
    by_cases hk₁ : k₁ = k
    · simp [extUpdate, hk₁] at he
      rcases he with he | he
      · subst he; exact hk
      · exact hm e (by simp [he])
    · simp [extUpdate, hk₁] at he
      rcases he with he | he
      · subst he
        exact hm (k₁, b, c) (by simp)
      · exact ih (fun x hx => hm x (by simp [hx])) e he

/-- The histogram totals and key shapes are invariants of the entry
loop, for every fuel, cancellation predicate and starting state. -/
theorem scanEntriesF_ext (cancel : Nat → Bool) (K Kg : Int) (fuel : Nat) :
    ∀ dirPath entries acc,
      extBytesTotal acc.st.extStats = acc.st.bytesScanned →
      extCountTotal acc.st.extStats = acc.st.files →
      (∀ e ∈ acc.st.extStats, pyLower e.1 = e.1) →
      extBytesTotal (scanEntriesF cancel K Kg fuel dirPath entries acc).st.extStats
          = (scanEntriesF cancel K Kg fuel dirPath entries acc).st.bytesScanned
        ∧ extCountTotal (scanEntriesF cancel K Kg fuel dirPath entries acc).st.extStats
          = (scanEntriesF cancel K Kg fuel dirPath entries acc).st.files
        ∧ ∀ e ∈ (scanEntriesF cancel K Kg fuel dirPath entries acc).st.extStats,
            pyLower e.1 = e.1 := by
  induction fuel with
  | zero => intro dirPath entries acc hb hc hks; exact ⟨hb, hc, hks⟩
  | succ fuel ih =>
    intro dirPath entries acc hb hc hks
    match entries with
    | [] => exact ⟨hb, hc, hks⟩
    | e :: rest =>
      simp only [scanEntriesF, pollCancel_eq]
      by_cases hcan : cancel acc.st.polls
      · simp only [hcan, if_true]
        exact ⟨hb, hc, hks⟩
      · simp only [hcan, if_false, Bool.false_eq_true]
        match e with
        | .skipped nm => exact ih dirPath rest _ hb hc hks
        | .dir nm sub =>
          by_cases hcan₂ : cancel (acc.st.polls + 1)
          · simp only [hcan₂, if_true]
            exact ih dirPath rest _ hb hc hks
          · simp only [hcan₂, if_false, Bool.false_eq_true]
            cases sub with
            | none => exact ih dirPath rest _ hb hc hks
            | some l =>
              simp only
              obtain ⟨ib, ic, iks⟩ :=
                ih (dirPath ++ "/" ++ nm) l
                  (DirAcc.init
                    { acc.st with
                      dirs := acc.st.dirs + 1
                      polls := acc.st.polls + 1 + 1 }) hb hc hks
              exact ih dirPath rest _ ib ic iks
        | .file nm sz =>
          apply ih dirPath rest
          · simp only
            rw [extUpdate_bytesTotal]
            omega
          · simp only
            rw [extUpdate_countTotal]
            omega
          · simp only
            exact extUpdate_keys _ _ _ hks (pyLower_extKey nm)

/-- The histogram totals are invariants of the root loop. -/
theorem scanRoots_ext (cancel : Nat → Bool) (K Kg : Int)
    (resolve : String → Option (List FS)) :
    ∀ ps children size st,
      extBytesTotal st.extStats = st.bytesScanned →
      extCountTotal st.extStats = st.files →
      (∀ e ∈ st.extStats, pyLower e.1 = e.1) →
      extBytesTotal (scanRoots cancel K Kg resolve ps children size st).2.2.extStats
          = (scanRoots cancel K Kg resolve ps children size st).2.2.bytesScanned
        ∧ extCountTotal (scanRoots cancel K Kg resolve ps children size st).2.2.extStats
          = (scanRoots cancel K Kg resolve ps children size st).2.2.files
        ∧ ∀ e ∈ (scanRoots cancel K Kg resolve ps children size st).2.2.extStats,
            pyLower e.1 = e.1 := by
  intro ps
  induction ps with
  | nil => intro children size st hb hc hks; exact ⟨hb, hc, hks⟩
  | cons p rest ih =>
    intro children size st hb hc hks
    simp only [scanRoots, pollCancel_eq]
    by_cases hcan : cancel st.polls
    · simp only [hcan, if_true]
      exact ⟨hb, hc, hks⟩
    · simp only [hcan, if_false, Bool.false_eq_true, scanDirRoot, pollCancel_eq]
      by_cases hcan₂ : cancel (st.polls + 1)
      · simp only [hcan₂, if_true]
        exact ih _ _ _ hb hc hks
      · simp only [hcan₂, if_false, Bool.false_eq_true]
        rcases hres : resolve p with _ | l
        · simp only [hres]
          exact ih _ _ _ hb hc hks
        · simp only [hres, scanEntries]
          obtain ⟨ib, ic, iks⟩ :=
            scanEntriesF_ext cancel K Kg (FS.weightList l) p l
              (DirAcc.init { st with polls := st.polls + 1 + 1 }) hb hc hks
          exact ih _ _ _ ib ic iks

/-- C8: for every scan that returns a result, summing the byte totals of
`ext_stats` over all extension keys equals `bytes_scanned` and summing
the per-extension counts equals `files`; every key is fixed by
lower-casing, and a file name without an extension is filed under the
sentinel key. -/
theorem ext_histogram_totals (resolve : String → Option (List FS))
    (paths : List String) (cancel : Nat → Bool) (K Kg : Int)
    (res : ScanResult) (h : scan_paths resolve paths cancel K Kg = .ok res) :
    extBytesTotal res.ext_stats = res.bytes_scanned
    ∧ extCountTotal res.ext_stats = res.files
    ∧ (∀ e ∈ res.ext_stats, pyLower e.1 = e.1)
    ∧ (∀ nm, splitextExt nm = "" → extKey nm = "<без расширения>") := by
  have base : ∀ nm, splitextExt nm = "" → extKey nm = "<без расширения>" := by
    intro nm hnm
    simp [extKey, hnm, pyLower]
  rcases hps : normalizePaths paths with _ | ⟨p₀, ps⟩
  · rw [scan_paths, hps] at h
    exact absurd h (by simp)
  · rw [scan_paths, hps] at h
    simp only [Except.ok.injEq] at h
    obtain ⟨rb, rc, rks⟩ :=
      scanRoots_ext cancel K Kg resolve (p₀ :: ps) [] 0 ScanState.init
        rfl rfl (by simp [ScanState.init])
    subst h
    exact ⟨rb, rc, rks, base⟩

/-- Witness for C8: the totals at a concrete nested scan: bytes
`5 + 7 = 12` split over keys `.txt` (lower-cased from `.TXT`) and the
sentinel, counts `1 + 1 = 2`. -/
theorem ext_histogram_totals_witness :
    extBytesTotal [(".txt", (5 : Int), (1 : Nat)),
        ("<без расширения>", (7 : Int), (1 : Nat))] = (12 : Int)
    ∧ extCountTotal [(".txt", (5 : Int), (1 : Nat)),
        ("<без расширения>", (7 : Int), (1 : Nat))] = (2 : Nat) := by
  have h :=
    ext_histogram_totals fsNested ["r"] (fun _ => false) 80 400
      { root := .mk "r" "r" true 12
          [.mk "r" "r" true 12
            [.mk "d" "r/d" true 7 [.mk "y" "r/d/y" false 7 []],
             .mk "e" "r/e" true 0 [],
             .mk "x.TXT" "r/x.TXT" false 5 []]]
        ext_stats := [(".txt", 5, 1), ("<без расширения>", 7, 1)]
        top_files := [(7, "r/d/y"), (5, "r/x.TXT")]
        scanned_paths := ["r"]
        files := 2, dirs := 2, bytes_scanned := 12, elapsed_sec := 0 }
      rfl
  exact ⟨h.1, h.2.1⟩

/-! ## C9: global top-K

First the generic facts about the model's stable descending sort. -/

theorem insertDesc_perm (key : α → Int) (x : α) (l : List α) :
    (insertDesc key x l).Perm (x :: l) := by
  induction l with
  | nil => exact List.Perm.refl _
  | cons y ys ih =>
    by_cases h : key x > key y
    · simp [insertDesc, h]
    · simp only [insertDesc, if_neg h]
      exact (ih.cons y).trans (List.Perm.swap x y ys)

theorem sortDesc_foldl_perm (key : α → Int) :
    ∀ (l acc : List α),
      (l.foldl (fun acc x => insertDesc key x acc) acc).Perm (acc ++ l) := by
  intro l
  induction l with
  | nil => intro acc; simp
  | cons x xs ih =>
    intro acc
    have h₁ := ih (insertDesc key x acc)
    have h₂ := (insertDesc_perm key x acc).append_right xs
    have h₃ : ((x :: acc) ++ xs).Perm (acc ++ x :: xs) := List.perm_middle.symm
    exact (h₁.trans h₂).trans h₃

theorem sortDesc_perm (key : α → Int) (l : List α) : (sortDesc key l).Perm l := by
  simpa using sortDesc_foldl_perm key l []

theorem insertDesc_pairwise (key : α → Int) (x : α) (l : List α)
    (h : l.Pairwise (fun a b => key b ≤ key a)) :
    (insertDesc key x l).Pairwise (fun a b => key b ≤ key a) := by
  induction l with
  | nil => simp [insertDesc]
  | cons y ys ih =>
    rcases List.pairwise_cons.mp h with ⟨hy, hys⟩
    by_cases hxy : key x > key y
    · simp only [insertDesc, if_pos hxy]
      refine List.pairwise_cons.mpr ⟨?_, h⟩
      intro z hz
      rcases List.mem_cons.mp hz with rfl | hz
      · omega
      · have := hy z hz
        omega
    · simp only [insertDesc, if_neg hxy]
      refine List.pairwise_cons.mpr ⟨?_, ih hys⟩
      intro z hz
      have hz₁ := (insertDesc_perm key x ys).mem_iff.mp hz
      rcases List.mem_cons.mp hz₁ with rfl | hz₂
      · omega
      · exact hy z hz₂

theorem sortDesc_pairwise (key : α → Int) (l : List α) :
    (sortDesc key l).Pairwise (fun a b => key b ≤ key a) := by
  suffices h : ∀ (l acc : List α),
      acc.Pairwise (fun a b => key b ≤ key a) →
      (l.foldl (fun acc x => insertDesc key x acc) acc).Pairwise
        (fun a b => key b ≤ key a) by
    exact h l [] (by simp)
  intro l
  induction l with
  | nil => intro acc hacc; simpa using hacc
  | cons x xs ih => intro acc hacc; exact ih _ (insertDesc_pairwise key x acc hacc)

theorem sortDesc_append_one (key : α → Int) (l : List α) (x : α) :
    sortDesc key (l ++ [x]) = insertDesc key x (sortDesc key l) := by
  simp [sortDesc, List.foldl_append]

theorem map_fst_insertDesc (x : Int × String) (l : List (Int × String)) :
    (insertDesc (fun t => t.1) x l).map Prod.fst
      = insertDesc id x.1 (l.map Prod.fst) := by
  induction l with
  | nil => rfl
  | cons y ys ih =>
    by_cases h : x.1 > y.1
    · simp [insertDesc, h]
    · simp [insertDesc, h, ih]

theorem map_fst_sortDesc (l : List (Int × String)) :
    (sortDesc (fun t => t.1) l).map Prod.fst = sortDesc id (l.map Prod.fst) := by
  suffices h : ∀ (l acc : List (Int × String)),
      (l.foldl (fun acc x => insertDesc (fun t => t.1) x acc) acc).map Prod.fst
        = (l.map Prod.fst).foldl (fun acc x => insertDesc id x acc)
            (acc.map Prod.fst) by
    simpa using h l []
  intro l
  induction l with
  | nil => intro acc; rfl
  | cons x xs ih =>
    intro acc
    simp only [List.foldl_cons, List.map_cons, ih, map_fst_insertDesc]

theorem insertDesc_take (x : Int) (l : List Int) (k : Nat) :
    (insertDesc id x l).take k = (insertDesc id x (l.take k)).take k := by
  induction l generalizing k with
  | nil => simp
  | cons y ys ih =>
    cases k with
    | zero => simp
    | succ k₁ =>
      by_cases h : x > y
      · simp only [insertDesc, id_eq, if_pos h, List.take_succ_cons]
        cases k₁ with
        | zero => simp
        | succ j =>
          simp only [List.take_succ_cons, List.take_take]
          rw [Nat.min_eq_left (by omega)]
      · simp only [insertDesc, id_eq, if_neg h, List.take_succ_cons]
        rw [ih k₁]

theorem insertDesc_take_of_le (x : Int) (l : List Int) (h : ∀ y ∈ l, x ≤ y) :
    (insertDesc id x l).take l.length = l := by
  induction l with
  | nil => simp
  | cons y ys ih =>
    have hy : x ≤ y := h y (by simp)
    have hgt : ¬ x > y := by omega
    simp only [insertDesc, id_eq, if_neg hgt, List.length_cons,
      List.take_succ_cons]
    rw [ih (fun z hz => h z (by simp [hz]))]

theorem insertDesc_snoc_take (l : List Int) (m x : Int) (hx : x > m) :
    (insertDesc id x (l ++ [m])).take (l.length + 1) = insertDesc id x l := by
  induction l with
  | nil => simp [insertDesc, hx]
  | cons y ys ih =>
    by_cases h : x > y
    · simp only [List.cons_append, insertDesc, id_eq, if_pos h, List.length_cons,
        List.take_succ_cons, List.append_eq, List.take_left]
    · simp only [List.cons_append, insertDesc, id_eq, if_neg h, List.length_cons,
        List.take_succ_cons, List.append_eq]
      rw [ih]

theorem sortDesc_length (key : α → Int) (l : List α) :
    (sortDesc key l).length = l.length :=
  (sortDesc_perm key l).length_eq

theorem erasePair_perm (a : Int × String) :
    ∀ (l : List (Int × String)), a ∈ l → l.Perm (a :: erasePair l a) := by
  intro l
  induction l with
  | nil => intro h; simp at h
  | cons x xs ih =>
    intro h
    by_cases hx : x = a
    · subst hx
      simp [erasePair]
    · have hmem : a ∈ xs := by
        rcases List.mem_cons.mp h with h₁ | h₁
        · exact absurd h₁.symm hx
        · exact h₁
      simp only [erasePair, if_neg hx]
      exact ((ih hmem).cons x).trans (List.Perm.swap a x _)

theorem erasePair_length (a : Int × String) (l : List (Int × String))
    (h : a ∈ l) : (erasePair l a).length + 1 = l.length := by
  have hp := (erasePair_perm a l h).length_eq
  simp at hp
  omega

theorem heapMin_cons (x y : Int × String) (ys : List (Int × String)) :
    heapMin x (y :: ys) = heapMin (if pairLt y x then y else x) ys := rfl

theorem heapMin_mem : ∀ (xs : List (Int × String)) (x : Int × String),
    heapMin x xs ∈ x :: xs := by
  intro xs
  induction xs with
  | nil => intro x; simp [heapMin]
  | cons y ys ih =>
    intro x
    rw [heapMin_cons]
    rcases List.mem_cons.mp (ih (if pairLt y x then y else x)) with h | h
    · rw [h]
      by_cases hp : pairLt y x <;> simp [hp]
    · simp [h]

theorem pairLt_fst_le {a b : Int × String} (h : pairLt a b = true) : a.1 ≤ b.1 := by
  simp [pairLt] at h
  rcases h with h₁ | h₁
  · omega
  · omega

theorem pairLt_fst_ge {a b : Int × String} (h : pairLt a b = false) : b.1 ≤ a.1 := by
  by_cases hlt : a.1 < b.1
  · exfalso
    have htrue : pairLt a b = true := by
      simp [pairLt]
      exact Or.inl hlt
    rw [htrue] at h
    exact Bool.noConfusion h
  · omega

theorem heapMin_fst_le : ∀ (xs : List (Int × String)) (x : Int × String),
    ∀ y ∈ x :: xs, (heapMin x xs).1 ≤ y.1 := by
  intro xs
  induction xs with
  | nil =>
    intro x y hy
    simp at hy
    simp [heapMin, hy]
  | cons z zs ih =>
    intro x y hy
    rw [heapMin_cons]
    have hsle : (if pairLt z x then z else x).1 ≤ x.1
        ∧ (if pairLt z x then z else x).1 ≤ z.1 := by
      by_cases hp : pairLt z x
      · simp only [hp, if_true]
        exact ⟨pairLt_fst_le hp, le_refl _⟩
      · simp only [hp, if_false]
        exact ⟨le_refl _, pairLt_fst_ge (by simpa using hp)⟩
    have hmin_s : (heapMin (if pairLt z x then z else x) zs).1
        ≤ (if pairLt z x then z else x).1 :=
      ih (if pairLt z x then z else x) _ (by simp)
    rcases List.mem_cons.mp hy with rfl | hy₂
    · exact le_trans hmin_s hsle.1
    · rcases List.mem_cons.mp hy₂ with rfl | hy₃
      · exact le_trans hmin_s hsle.2
      · exact ih (if pairLt z x then z else x) y (List.mem_cons_of_mem _ hy₃)

/-- Half of C9: the bounded min-heap of `_push_top` never grows past the
`global_top_files` cap. -/
theorem push_top_length_le (heap : List (Int × String)) (item : Int × String)
    (limit : Int) (h : heap.length ≤ limit.toNat) :
    (push_top heap item limit).length ≤ limit.toNat := by
  unfold push_top
  by_cases h₀ : limit ≤ 0
  · simpa [h₀] using h
  · simp only [h₀, if_false]
    by_cases h₁ : (heap.length : Int) < limit
    · simp only [h₁, if_true, List.length_append, List.length_cons,
        List.length_nil]
      omega
    · simp only [h₁, if_false]
      match heap, h, h₁ with
      | [], h, h₁ => simpa using h
      | x :: xs, h, h₁ =>
        simp only
        by_cases h₂ : item.1 > (heapMin x xs).1
        · have hl₂ := erasePair_length _ _ (heapMin_mem xs x)
          simp only [h₂, if_true, List.length_cons]
          omega
        · simpa [h₂] using h

/-- The bounded min-heap invariant of `_push_top`: pushing one item of a
stream keeps (i) the heap size at `min cap (#seen)`, (ii) the heap a
sub-multiset of the seen items, and (iii) the descending sort of the
heap's sizes equal to the top `cap` of the descending sort of all seen
sizes. -/
theorem push_top_topK (Kg : Int) (heap seen : List (Int × String))
    (item : Int × String)
    (hlen : heap.length = min Kg.toNat seen.length)
    (hsub : (heap : Multiset (Int × String)) ≤ (seen : Multiset (Int × String)))
    (hsort : sortDesc id (heap.map Prod.fst)
      = (sortDesc id (seen.map Prod.fst)).take Kg.toNat) :
    (push_top heap item Kg).length = min Kg.toNat (seen.length + 1)
    ∧ ((push_top heap item Kg : List (Int × String)) : Multiset (Int × String))
        ≤ ((seen ++ [item] : List (Int × String)) : Multiset (Int × String))
    ∧ sortDesc id ((push_top heap item Kg).map Prod.fst)
        = (sortDesc id ((seen ++ [item]).map Prod.fst)).take Kg.toNat := by
  haveI : IsAntisymm Int (fun a b => b ≤ a) :=
    ⟨fun _ _ h₁ h₂ => le_antisymm h₂ h₁⟩
  have hS' : sortDesc id ((seen ++ [item]).map Prod.fst)
      = insertDesc id item.1 (sortDesc id (seen.map Prod.fst)) := by
    rw [List.map_append]
    simpa using sortDesc_append_one id (seen.map Prod.fst) item.1
  unfold push_top
  by_cases h₀ : Kg ≤ 0
  · have hk : Kg.toNat = 0 := by omega
    have hheap : heap = [] := by
      have hl := hlen
      rw [hk] at hl
      simpa using hl
    subst hheap
    rw [if_pos h₀]
    refine ⟨by simp [hk], ?_, by simp [hk, sortDesc]⟩
    simpa using Multiset.zero_le _
  · rw [if_neg h₀]
    have hkpos : 0 < Kg.toNat := by omega
    by_cases h₁ : (heap.length : Int) < Kg
    · -- heap not yet full: plain push
      have hlt : heap.length < Kg.toNat := by omega
      have hseen : seen.length = heap.length := by omega
      have hSfull : (sortDesc id (seen.map Prod.fst)).take Kg.toNat
          = sortDesc id (seen.map Prod.fst) := by
        apply List.take_of_length_le
        rw [sortDesc_length, List.length_map]
        omega
      rw [if_pos h₁]
      refine ⟨by simp; omega, ?_, ?_⟩
      · have hcoe : ((heap ++ [item] : List (Int × String)) : Multiset (Int × String))
            = (heap : Multiset (Int × String)) + ([item] : List (Int × String)) := rfl
        rw [hcoe]
        have hcoe₂ : ((seen ++ [item] : List (Int × String)) : Multiset (Int × String))
            = (seen : Multiset (Int × String)) + ([item] : List (Int × String)) := rfl
        rw [hcoe₂]
        exact add_le_add_right hsub _
      · rw [hS']
        simp only [List.map_append, List.map_cons, List.map_nil]
        have h₃ : sortDesc id (heap.map Prod.fst ++ [item.1])
            = insertDesc id item.1 (sortDesc id (heap.map Prod.fst)) :=
          sortDesc_append_one id (heap.map Prod.fst) item.1
        rw [h₃, hsort, hSfull]
        apply (List.take_of_length_le ?_).symm
        have := (insertDesc_perm id item.1 (sortDesc id (seen.map Prod.fst))).length_eq
        rw [this]
        simp only [List.length_cons, sortDesc_length, List.length_map]
        omega
    · -- heap full
      have hfull : heap.length = Kg.toNat := by omega
      have hseen : Kg.toNat ≤ seen.length := by omega
      match heap, hlen, hsub, hsort, hfull, h₁ with
      | [], hlen, hsub, hsort, hfull, h₁ =>
        simp at hfull
        exact (by omega : False).elim
      | x :: xs, hlen, hsub, hsort, hfull, h₁ =>
        simp only
        rw [if_neg h₁]
        set m := heapMin x xs with hm
        have hmmem : m ∈ x :: xs := heapMin_mem xs x
        have hmle : ∀ y ∈ x :: xs, m.1 ≤ y.1 := heapMin_fst_le xs x
        -- the sorted sizes of the heap, decomposed at the last element
        set H := sortDesc id ((x :: xs).map Prod.fst) with hH
        have hHperm : H.Perm ((x :: xs).map Prod.fst) := sortDesc_perm _ _
        have hHlen : H.length = Kg.toNat := by
          rw [hH, sortDesc_length, List.length_map]
          exact hfull
        have hHne : H ≠ [] := by
          intro hcon
          rw [hcon] at hHlen
          simp at hHlen
          omega
        have hHdec : H.dropLast ++ [H.getLast hHne] = H :=
          List.dropLast_append_getLast hHne
        have hHsorted : H.Pairwise (fun a b : Int => b ≤ a) := by
          have := sortDesc_pairwise id ((x :: xs).map Prod.fst)
          simpa using this
        -- the last element of the sorted heap sizes is the heap minimum
        have hlast : H.getLast hHne = m.1 := by
          have hmem₁ : H.getLast hHne ∈ H := List.getLast_mem hHne
          have hmem₂ : H.getLast hHne ∈ (x :: xs).map Prod.fst :=
            hHperm.mem_iff.mp hmem₁
          obtain ⟨t, htmem, htfst⟩ := List.mem_map.mp hmem₂
          have h₁' : m.1 ≤ H.getLast hHne := htfst ▸ hmle t htmem
          have hmH : m.1 ∈ H :=
            hHperm.mem_iff.mpr (List.mem_map.mpr ⟨m, hmmem, rfl⟩)
          have hpw : (H.dropLast ++ [H.getLast hHne]).Pairwise
              (fun a b : Int => b ≤ a) := by
            rw [hHdec]
            exact hHsorted
          have h₂' : H.getLast hHne ≤ m.1 := by
            rw [← hHdec] at hmH
            rcases List.mem_append.mp hmH with hin | hin
            · exact (List.pairwise_append.mp hpw).2.2 m.1 hin
                (H.getLast hHne) (by simp)
            · simp at hin
              omega
          omega
        by_cases h₂ : item.1 > m.1
        · -- replace the minimum
          rw [if_pos h₂]
          have herase : (erasePair (x :: xs) m).length + 1 = Kg.toNat := by
            rw [erasePair_length _ _ hmmem]
            exact hfull
          have hperase : (x :: xs).Perm (m :: erasePair (x :: xs) m) :=
            erasePair_perm m (x :: xs) hmmem
          refine ⟨?_, ?_, ?_⟩
          · simp only [List.length_cons]
            omega
          · have hsub₂ : ((erasePair (x :: xs) m : List (Int × String)) :
                Multiset (Int × String))
                ≤ (seen : Multiset (Int × String)) := by
              calc ((erasePair (x :: xs) m : List (Int × String)) :
                  Multiset (Int × String))
                  ≤ ((x :: xs : List (Int × String)) : Multiset (Int × String)) := by
                    have : ((x :: xs : List (Int × String)) :
                        Multiset (Int × String))
                        = ((m :: erasePair (x :: xs) m : List (Int × String)) :
                            Multiset (Int × String)) :=
                      Multiset.coe_eq_coe.mpr hperase
                    rw [this]
                    exact Multiset.le_cons_self _ _
                _ ≤ (seen : Multiset (Int × String)) := hsub
            have : ((item :: erasePair (x :: xs) m : List (Int × String)) :
                Multiset (Int × String))
                = item ::ₘ ((erasePair (x :: xs) m : List (Int × String)) :
                    Multiset (Int × String)) := by simp
            rw [this]
            have h₄ : ((seen ++ [item] : List (Int × String)) :
                Multiset (Int × String))
                = item ::ₘ (seen : Multiset (Int × String)) := by
              simp [Multiset.cons_swap]
            rw [h₄]
            exact Multiset.cons_le_cons item hsub₂
          · -- sorted sizes: the new item displaces the old minimum
            have hdll : H.dropLast.length + 1 = Kg.toNat := by
              have := List.length_dropLast H
              omega
            have hrhs : (sortDesc id ((seen ++ [item]).map Prod.fst)).take Kg.toNat
                = insertDesc id item.1 H.dropLast := by
              have hstep := insertDesc_snoc_take H.dropLast (H.getLast hHne)
                item.1 (by rw [hlast]; exact h₂)
              rw [hHdec] at hstep
              rw [hS', insertDesc_take, ← hsort, ← hdll]
              exact hstep
            rw [hrhs]
            apply List.eq_of_perm_of_sorted (r := fun a b : Int => b ≤ a)
            · -- permutation
              have p₁ : (sortDesc id ((item :: erasePair (x :: xs) m).map Prod.fst)).Perm
                  (item.1 :: (erasePair (x :: xs) m).map Prod.fst) := by
                simpa using sortDesc_perm id ((item :: erasePair (x :: xs) m).map Prod.fst)
              have p₂ : ((x :: xs).map Prod.fst).Perm
                  (m.1 :: (erasePair (x :: xs) m).map Prod.fst) := by
                simpa using hperase.map Prod.fst
              have p₃ : (m.1 :: (erasePair (x :: xs) m).map Prod.fst).Perm
                  (m.1 :: H.dropLast) := by
                have p₄ : H.Perm (m.1 :: H.dropLast) := by
                  conv_lhs => rw [← hHdec, hlast]
                  exact List.perm_append_singleton _ _
                exact ((p₂.symm.trans hHperm.symm).trans p₄)
              have p₅ : ((erasePair (x :: xs) m).map Prod.fst).Perm H.dropLast :=
                p₃.cons_inv
              have p₆ : (insertDesc id item.1 H.dropLast).Perm
                  (item.1 :: H.dropLast) := insertDesc_perm _ _ _
              exact (p₁.trans (p₅.cons item.1)).trans p₆.symm
            · simpa using sortDesc_pairwise id ((item :: erasePair (x :: xs) m).map Prod.fst)
            · have hsl : H.dropLast.Pairwise (fun a b : Int => b ≤ a) :=
                hHsorted.sublist (List.dropLast_sublist H)
              simpa using insertDesc_pairwise id item.1 H.dropLast hsl
        · -- the new item is not larger than the heap minimum: no change
          rw [if_neg h₂]
          refine ⟨?_, ?_, ?_⟩
          · simp only [List.length_cons] at hfull ⊢
            omega
          · have hle : (seen : Multiset (Int × String))
                ≤ ((seen ++ [item] : List (Int × String)) :
                    Multiset (Int × String)) := by
              have hco : ((seen ++ [item] : List (Int × String)) :
                  Multiset (Int × String))
                  = (seen : Multiset (Int × String))
                    + (([item] : List (Int × String)) : Multiset (Int × String)) :=
                rfl
              rw [hco]
              exact Multiset.le_add_right _ _
            exact hsub.trans hle
          · rw [hS', insertDesc_take, ← hsort, ← hHlen]
            refine (insertDesc_take_of_le item.1 H ?_).symm
            intro y hy
            have hy₂ : y ∈ (x :: xs).map Prod.fst := hHperm.mem_iff.mp hy
            obtain ⟨t, htmem, htfst⟩ := List.mem_map.mp hy₂
            have := hmle t htmem
            omega

/-- The `_push_top` invariant carried over a whole stream of files. -/
theorem push_top_fold (Kg : Int) :
    ∀ (fs seen heap : List (Int × String)),
      heap.length = min Kg.toNat seen.length →
      (heap : Multiset (Int × String)) ≤ (seen : Multiset (Int × String)) →
      sortDesc id (heap.map Prod.fst)
        = (sortDesc id (seen.map Prod.fst)).take Kg.toNat →
      (fs.foldl (fun h f => push_top h f Kg) heap).length
          = min Kg.toNat (seen.length + fs.length)
      ∧ ((fs.foldl (fun h f => push_top h f Kg) heap : List (Int × String)) :
          Multiset (Int × String))
          ≤ ((seen ++ fs : List (Int × String)) : Multiset (Int × String))
      ∧ sortDesc id ((fs.foldl (fun h f => push_top h f Kg) heap).map Prod.fst)
          = (sortDesc id ((seen ++ fs).map Prod.fst)).take Kg.toNat := by
  intro fs
  induction fs with
  | nil =>
    intro seen heap h₁ h₂ h₃
    simpa using ⟨h₁, h₂, h₃⟩
  | cons f fs ih =>
    intro seen heap h₁ h₂ h₃
    obtain ⟨g₁, g₂, g₃⟩ := push_top_topK Kg heap seen f h₁ h₂ h₃
    have hres := ih (seen ++ [f]) (push_top heap f Kg)
      (by simpa using g₁) g₂ (by simpa using g₃)
    obtain ⟨r₁, r₂, r₃⟩ := hres
    refine ⟨?_, ?_, ?_⟩
    · simp only [List.foldl_cons, List.length_cons]
      simp only [List.length_append, List.length_cons, List.length_nil] at r₁
      omega
    · simpa using r₂
    · simpa using r₃

theorem FS_weight_pos (e : FS) : 1 ≤ e.weight := by
  cases e with
  | file nm sz => simp [FS.weight]
  | skipped nm => simp [FS.weight]
  | dir nm sub => cases sub <;> simp [FS.weight]

theorem FS_weightList_pos (l : List FS) : 1 ≤ FS.weightList l := by
  cases l with
  | nil => simp [FS.weightList]
  | cons e rest =>
    simp [FS.weightList]
    omega

/-- Characterization of the entry loop on an uncancelled scan: the
global heap after the loop is the `_push_top` fold over the directory's
file stream in encounter order, and the file counter advances by the
stream's length. -/
theorem scanEntriesF_stream (K Kg : Int) :
    ∀ (fuel : Nat) (dirPath : String) (entries : List FS) (acc : DirAcc),
      FS.weightList entries ≤ fuel →
      (scanEntriesF (fun _ => false) K Kg fuel dirPath entries acc).st.globalTop
          = (filesUnderList dirPath entries).foldl
              (fun h f => push_top h f Kg) acc.st.globalTop
        ∧ (scanEntriesF (fun _ => false) K Kg fuel dirPath entries acc).st.files
          = acc.st.files + (filesUnderList dirPath entries).length := by
  intro fuel
  induction fuel with
  | zero =>
    intro dirPath entries acc hw
    exact absurd hw (by have := FS_weightList_pos entries; omega)
  | succ fuel ih =>
    intro dirPath entries acc hw
    match entries with
    | [] => simp [scanEntriesF, filesUnderList]
    | e :: rest =>
      have hwrest : FS.weightList rest ≤ fuel := by
        simp only [FS.weightList] at hw
        have := FS_weight_pos e
        omega
      simp only [scanEntriesF, pollCancel_eq, Bool.false_eq_true, if_false]
      match e with
      | .skipped nm =>
        simp only [filesUnderList, filesUnder, List.nil_append]
        exact ih dirPath rest _ hwrest
      | .dir nm sub =>
        cases sub with
        | none =>
          simp only [filesUnderList, filesUnder, List.nil_append]
          exact ih dirPath rest _ hwrest
        | some l =>
          have hwl : FS.weightList l ≤ fuel := by
            simp only [FS.weightList, FS.weight] at hw
            omega
          simp only
          obtain ⟨g₁, g₂⟩ :=
            ih (dirPath ++ "/" ++ nm) l
              (DirAcc.init
                { files := acc.st.files, dirs := acc.st.dirs + 1
                  bytesScanned := acc.st.bytesScanned
                  extStats := acc.st.extStats, globalTop := acc.st.globalTop
                  polls := acc.st.polls + 1 + 1 }) hwl
          obtain ⟨r₁, r₂⟩ := ih dirPath rest
            { children := acc.children ++
                [finishDir (dirPath ++ "/" ++ nm)
                  (scanEntriesF (fun _ => false) K Kg fuel (dirPath ++ "/" ++ nm) l
                    (DirAcc.init
                      { files := acc.st.files, dirs := acc.st.dirs + 1
                        bytesScanned := acc.st.bytesScanned
                        extStats := acc.st.extStats, globalTop := acc.st.globalTop
                        polls := acc.st.polls + 1 + 1 }))]
              size := acc.size +
                (finishDir (dirPath ++ "/" ++ nm)
                  (scanEntriesF (fun _ => false) K Kg fuel (dirPath ++ "/" ++ nm) l
                    (DirAcc.init
                      { files := acc.st.files, dirs := acc.st.dirs + 1
                        bytesScanned := acc.st.bytesScanned
                        extStats := acc.st.extStats, globalTop := acc.st.globalTop
                        polls := acc.st.polls + 1 + 1 }))).size
              localTop := acc.localTop, lfc := acc.lfc, lob := acc.lob
              st := (scanEntriesF (fun _ => false) K Kg fuel (dirPath ++ "/" ++ nm) l
                  (DirAcc.init
                    { files := acc.st.files, dirs := acc.st.dirs + 1
                      bytesScanned := acc.st.bytesScanned
                      extStats := acc.st.extStats, globalTop := acc.st.globalTop
                      polls := acc.st.polls + 1 + 1 })).st } hwrest
          refine ⟨?_, ?_⟩
          · rw [r₁]
            simp only [g₁]
            simp [filesUnderList, filesUnder, List.foldl_append, DirAcc.init]
          · rw [r₂]
            simp only [g₂]
            simp [filesUnderList, filesUnder, DirAcc.init]
            omega
      | .file nm sz =>
        simp only
        obtain ⟨r₁, r₂⟩ := ih dirPath rest
          { children := acc.children
            size := acc.size + sz
            localTop := (localRoute K acc.localTop acc.lob sz nm
              (dirPath ++ "/" ++ nm)).1
            lfc := acc.lfc + 1
            lob := (localRoute K acc.localTop acc.lob sz nm
              (dirPath ++ "/" ++ nm)).2
            st :=
              { files := acc.st.files + 1, dirs := acc.st.dirs
                bytesScanned := acc.st.bytesScanned + sz
                extStats := extUpdate acc.st.extStats (extKey nm) sz
                globalTop := push_top acc.st.globalTop
                  (sz, dirPath ++ "/" ++ nm) Kg
                polls := acc.st.polls + 1 } } hwrest
        refine ⟨?_, ?_⟩
        · rw [r₁]
          simp [filesUnderList, filesUnder]
        · rw [r₂]
          simp [filesUnderList, filesUnder]
          omega

/-- Characterization of the root loop on an uncancelled scan. -/
theorem scanRoots_stream (K Kg : Int) (resolve : String → Option (List FS)) :
    ∀ (ps : List String) (children : List Node) (size : Int) (st : ScanState),
      (scanRoots (fun _ => false) K Kg resolve ps children size st).2.2.globalTop
          = (scanFiles resolve ps).foldl (fun h f => push_top h f Kg) st.globalTop
        ∧ (scanRoots (fun _ => false) K Kg resolve ps children size st).2.2.files
          = st.files + (scanFiles resolve ps).length := by
  intro ps
  induction ps with
  | nil => intro children size st; simp [scanRoots, scanFiles]
  | cons p rest ih =>
    intro children size st
    simp only [scanRoots, pollCancel_eq, Bool.false_eq_true, if_false,
      scanDirRoot]
    rcases hres : resolve p with _ | l
    · simp only [hres]
      obtain ⟨r₁, r₂⟩ := ih (children ++ [emptyDirNode p])
        (size + (emptyDirNode p).size)
        { files := st.files, dirs := st.dirs, bytesScanned := st.bytesScanned
          extStats := st.extStats, globalTop := st.globalTop
          polls := st.polls + 1 + 1 }
      refine ⟨?_, ?_⟩
      · rw [r₁]
        simp [scanFiles, List.flatMap_cons, hres]
      · rw [r₂]
        simp [scanFiles, List.flatMap_cons, hres]
    · simp only [hres, scanEntries]
      obtain ⟨g₁, g₂⟩ := scanEntriesF_stream K Kg (FS.weightList l) p l
        (DirAcc.init
          { files := st.files, dirs := st.dirs, bytesScanned := st.bytesScanned
            extStats := st.extStats, globalTop := st.globalTop
            polls := st.polls + 1 + 1 }) (le_refl _)
      obtain ⟨r₁, r₂⟩ := ih
        (children ++
          [finishDir p
            (scanEntriesF (fun _ => false) K Kg (FS.weightList l) p l
              (DirAcc.init
                { files := st.files, dirs := st.dirs
                  bytesScanned := st.bytesScanned
                  extStats := st.extStats, globalTop := st.globalTop
                  polls := st.polls + 1 + 1 }))])
        (size +
          (finishDir p
            (scanEntriesF (fun _ => false) K Kg (FS.weightList l) p l
              (DirAcc.init
                { files := st.files, dirs := st.dirs
                  bytesScanned := st.bytesScanned
                  extStats := st.extStats, globalTop := st.globalTop
                  polls := st.polls + 1 + 1 }))).size)
        (scanEntriesF (fun _ => false) K Kg (FS.weightList l) p l
          (DirAcc.init
            { files := st.files, dirs := st.dirs
              bytesScanned := st.bytesScanned
              extStats := st.extStats, globalTop := st.globalTop
              polls := st.polls + 1 + 1 })).st
      refine ⟨?_, ?_⟩
      · rw [r₁]
        simp only [g₁]
        simp [scanFiles, List.flatMap_cons, hres, List.foldl_append,
          DirAcc.init]
      · rw [r₂]
        simp only [g₂]
        simp [scanFiles, List.flatMap_cons, hres, DirAcc.init]
        omega

/-- C9: for every uncancelled scan, `top_files` lists exactly the
`min K_global #files` largest sizes among all visited files, in
non-increasing order; its entries are a sub-multiset of the visited
`(size, path)` pairs; and the bounded min-heap of `_push_top` never
exceeds the cap. -/
theorem global_top_files (resolve : String → Option (List FS))
    (paths : List String) (K Kg : Int) (res : ScanResult)
    (h : scan_paths resolve paths (fun _ => false) K Kg = .ok res) :
    res.top_files.map Prod.fst
        = (sortDesc id
            ((scanFiles resolve (normalizePaths paths)).map Prod.fst)).take
            Kg.toNat
    ∧ ((res.top_files : List (Int × String)) : Multiset (Int × String))
        ≤ ((scanFiles resolve (normalizePaths paths) : List (Int × String)) :
            Multiset (Int × String))
    ∧ res.top_files.length = min Kg.toNat res.files
    ∧ res.top_files.Pairwise (fun a b => b.1 ≤ a.1)
    ∧ (∀ (heap : List (Int × String)) (item : Int × String),
        heap.length ≤ Kg.toNat →
          (push_top heap item Kg).length ≤ Kg.toNat) := by
  rcases hps : normalizePaths paths with _ | ⟨p₀, ps⟩
  · rw [scan_paths, hps] at h
    exact absurd h (by simp)
  · rw [scan_paths, hps] at h
    simp only [Except.ok.injEq] at h
    obtain ⟨g₁, g₂⟩ :=
      scanRoots_stream K Kg resolve (p₀ :: ps) [] 0 ScanState.init
    obtain ⟨f₁, f₂, f₃⟩ :=
      push_top_fold Kg (scanFiles resolve (p₀ :: ps)) [] []
        (by simp) (by simp) (by simp [sortDesc])
    subst h
    simp only [ScanState.init] at g₁ g₂
    refine ⟨?_, ?_, ?_, ?_, ?_⟩
    · simp only [ScanState.init, map_fst_sortDesc, hps, g₁]
      simpa using f₃
    · simp only [ScanState.init, hps]
      have hperm := sortDesc_perm (fun t : Int × String => t.1)
        (scanRoots (fun _ => false) K Kg resolve (p₀ :: ps) [] 0
          { files := 0, dirs := 0, bytesScanned := 0, extStats := []
            globalTop := [], polls := 0 }).2.2.globalTop
      rw [Multiset.coe_eq_coe.mpr hperm, g₁]
      simpa using f₂
    · simp only [ScanState.init, sortDesc_length, g₁, g₂]
      simpa using f₁
    · exact sortDesc_pairwise (fun t : Int × String => t.1) _
    · intro heap item hb
      exact push_top_length_le heap item Kg hb

/-- Witness for C9 at a concrete nested scan: the two visited files of
sizes 5 and 7 are listed as `[(7, _), (5, _)]`, matching the descending
sort of all visited sizes, with length `min 400 2 = 2`. -/
theorem global_top_files_witness :
    (([((7 : Int), "r/d/y"), (5, "r/x.TXT")] : List (Int × String)).map Prod.fst
        = (sortDesc id
            ((scanFiles fsNested (normalizePaths ["r"])).map Prod.fst)).take
            (400 : Int).toNat)
    ∧ ([((7 : Int), "r/d/y"), (5, "r/x.TXT")] : List (Int × String)).length
        = min (400 : Int).toNat 2 :=
  ⟨(global_top_files fsNested ["r"] 80 400
      { root := .mk "r" "r" true 12
          [.mk "r" "r" true 12
            [.mk "d" "r/d" true 7 [.mk "y" "r/d/y" false 7 []],
             .mk "e" "r/e" true 0 [],
             .mk "x.TXT" "r/x.TXT" false 5 []]]
        ext_stats := [(".txt", 5, 1), ("<без расширения>", 7, 1)]
        top_files := [(7, "r/d/y"), (5, "r/x.TXT")]
        scanned_paths := ["r"]
        files := 2, dirs := 2, bytes_scanned := 12, elapsed_sec := 0 } rfl).1,
    (global_top_files fsNested ["r"] 80 400
      { root := .mk "r" "r" true 12
          [.mk "r" "r" true 12
            [.mk "d" "r/d" true 7 [.mk "y" "r/d/y" false 7 []],
             .mk "e" "r/e" true 0 [],
             .mk "x.TXT" "r/x.TXT" false 5 []]]
        ext_stats := [(".txt", 5, 1), ("<без расширения>", 7, 1)]
        top_files := [(7, "r/d/y"), (5, "r/x.TXT")]
        scanned_paths := ["r"]
        files := 2, dirs := 2, bytes_scanned := 12, elapsed_sec := 0 } rfl).2.2.1⟩

/-! ## C10: children layout of every directory node -/

theorem finishDir_congr (p : String) (r₁ r₂ : DirAcc)
    (hch : r₁.children = r₂.children) (hsz : r₁.size = r₂.size)
    (hlt : r₁.localTop = r₂.localTop) (hlfc : r₁.lfc = r₂.lfc)
    (hlob : r₁.lob = r₂.lob) : finishDir p r₁ = finishDir p r₂ := by
  unfold finishDir
  rw [hch, hsz, hlt, hlfc, hlob]

/-- The node-building components of the entry loop depend neither on the
fuel (past the sufficient bound) nor on the shared scan state. -/
theorem scanEntriesF_node_congr (K Kg : Int) :
    ∀ (fuel₁ fuel₂ : Nat) (dirPath : String) (entries : List FS)
      (ch : List Node) (sz : Int) (lt : List (Int × String × String))
      (lfc lob : Int) (st₁ st₂ : ScanState),
      FS.weightList entries ≤ fuel₁ → FS.weightList entries ≤ fuel₂ →
      (scanEntriesF (fun _ => false) K Kg fuel₁ dirPath entries
            ⟨ch, sz, lt, lfc, lob, st₁⟩).children
          = (scanEntriesF (fun _ => false) K Kg fuel₂ dirPath entries
            ⟨ch, sz, lt, lfc, lob, st₂⟩).children
        ∧ (scanEntriesF (fun _ => false) K Kg fuel₁ dirPath entries
            ⟨ch, sz, lt, lfc, lob, st₁⟩).size
          = (scanEntriesF (fun _ => false) K Kg fuel₂ dirPath entries
            ⟨ch, sz, lt, lfc, lob, st₂⟩).size
        ∧ (scanEntriesF (fun _ => false) K Kg fuel₁ dirPath entries
            ⟨ch, sz, lt, lfc, lob, st₁⟩).localTop
          = (scanEntriesF (fun _ => false) K Kg fuel₂ dirPath entries
            ⟨ch, sz, lt, lfc, lob, st₂⟩).localTop
        ∧ (scanEntriesF (fun _ => false) K Kg fuel₁ dirPath entries
            ⟨ch, sz, lt, lfc, lob, st₁⟩).lfc
          = (scanEntriesF (fun _ => false) K Kg fuel₂ dirPath entries
            ⟨ch, sz, lt, lfc, lob, st₂⟩).lfc
        ∧ (scanEntriesF (fun _ => false) K Kg fuel₁ dirPath entries
            ⟨ch, sz, lt, lfc, lob, st₁⟩).lob
          = (scanEntriesF (fun _ => false) K Kg fuel₂ dirPath entries
            ⟨ch, sz, lt, lfc, lob, st₂⟩).lob := by
  intro fuel₁
  induction fuel₁ with
  | zero =>
    intro fuel₂ dirPath entries ch sz lt lfc lob st₁ st₂ hw₁ hw₂
    exact absurd hw₁ (by have := FS_weightList_pos entries; omega)
  | succ fuel₁ ih =>
    intro fuel₂ dirPath entries ch sz lt lfc lob st₁ st₂ hw₁ hw₂
    match fuel₂, hw₂ with
    | 0, hw₂ =>
      exact absurd hw₂ (by have := FS_weightList_pos entries; omega)
    | fuel₂ + 1, hw₂ =>
      match entries with
      | [] => exact ⟨rfl, rfl, rfl, rfl, rfl⟩
      | e :: rest =>
        have hwr₁ : FS.weightList rest ≤ fuel₁ := by
          simp only [FS.weightList] at hw₁
          have := FS_weight_pos e
          omega
        have hwr₂ : FS.weightList rest ≤ fuel₂ := by
          simp only [FS.weightList] at hw₂
          have := FS_weight_pos e
          omega
        simp only [scanEntriesF, pollCancel_eq, Bool.false_eq_true, if_false]
        match e with
        | .skipped nm =>
          exact ih fuel₂ dirPath rest ch sz lt lfc lob _ _ hwr₁ hwr₂
        | .file nm sz₀ =>
          exact ih fuel₂ dirPath rest ch (sz + sz₀) _ (lfc + 1) _ _ _ hwr₁ hwr₂
        | .dir nm sub =>
          cases sub with
          | none =>
            simp only
            exact ih fuel₂ dirPath rest (ch ++ [emptyDirNode (dirPath ++ "/" ++ nm)])
              (sz + (emptyDirNode (dirPath ++ "/" ++ nm)).size) lt lfc lob _ _
              hwr₁ hwr₂
          | some l =>
            have hwl₁ : FS.weightList l ≤ fuel₁ := by
              simp only [FS.weightList, FS.weight] at hw₁
              omega
            have hwl₂ : FS.weightList l ≤ fuel₂ := by
              simp only [FS.weightList, FS.weight] at hw₂
              omega
            simp only
            obtain ⟨i₁, i₂, i₃, i₄, i₅⟩ :=
              ih fuel₂ (dirPath ++ "/" ++ nm) l [] 0 [] 0 0
                { files := st₁.files, dirs := st₁.dirs + 1
                  bytesScanned := st₁.bytesScanned
                  extStats := st₁.extStats, globalTop := st₁.globalTop
                  polls := st₁.polls + 1 + 1 }
                { files := st₂.files, dirs := st₂.dirs + 1
                  bytesScanned := st₂.bytesScanned
                  extStats := st₂.extStats, globalTop := st₂.globalTop
                  polls := st₂.polls + 1 + 1 } hwl₁ hwl₂
            have hchild : finishDir (dirPath ++ "/" ++ nm)
                (scanEntriesF (fun _ => false) K Kg fuel₁ (dirPath ++ "/" ++ nm) l
                  (DirAcc.init
                    { files := st₁.files, dirs := st₁.dirs + 1
                      bytesScanned := st₁.bytesScanned
                      extStats := st₁.extStats, globalTop := st₁.globalTop
                      polls := st₁.polls + 1 + 1 }))
                = finishDir (dirPath ++ "/" ++ nm)
                (scanEntriesF (fun _ => false) K Kg fuel₂ (dirPath ++ "/" ++ nm) l
                  (DirAcc.init
                    { files := st₂.files, dirs := st₂.dirs + 1
                      bytesScanned := st₂.bytesScanned
                      extStats := st₂.extStats, globalTop := st₂.globalTop
                      polls := st₂.polls + 1 + 1 })) :=
              finishDir_congr _ _ _ i₁ i₂ i₃ i₄ i₅
            rw [hchild]
            exact ih fuel₂ dirPath rest _ _ lt lfc lob _ _ hwr₁ hwr₂

theorem scanTreeNode_path (K Kg : Int) (p : String) (sub : Option (List FS)) :
    (scanTreeNode K Kg p sub).path = p := by
  cases sub <;> simp [scanTreeNode, emptyDirNode, finishDir, Node.path]

theorem scanTreeNode_isDir (K Kg : Int) (p : String) (sub : Option (List FS)) :
    (scanTreeNode K Kg p sub).isDir = true := by
  cases sub <;> simp [scanTreeNode, emptyDirNode, finishDir, Node.isDir]

/-- The `children` accumulator of the entry loop collects exactly the
subdirectory nodes, in encounter order, each equal to the pure scan of
its path and listing. -/
theorem scanEntriesF_children (K Kg : Int) :
    ∀ (fuel : Nat) (dirPath : String) (entries : List FS) (acc : DirAcc),
      FS.weightList entries ≤ fuel →
      (scanEntriesF (fun _ => false) K Kg fuel dirPath entries acc).children
        = acc.children ++ entries.flatMap (fun e =>
            match e with
            | .dir nm sub => [scanTreeNode K Kg (dirPath ++ "/" ++ nm) sub]
            | _ => []) := by
  intro fuel
  induction fuel with
  | zero =>
    intro dirPath entries acc hw
    exact absurd hw (by have := FS_weightList_pos entries; omega)
  | succ fuel ih =>
    intro dirPath entries acc hw
    match entries with
    | [] => simp [scanEntriesF]
    | e :: rest =>
      have hwr : FS.weightList rest ≤ fuel := by
        simp only [FS.weightList] at hw
        have := FS_weight_pos e
        omega
      simp only [scanEntriesF, pollCancel_eq, Bool.false_eq_true, if_false]
      match e with
      | .skipped nm =>
        rw [ih dirPath rest _ hwr]
        simp [List.flatMap_cons]
      | .file nm sz =>
        rw [ih dirPath rest _ hwr]
        simp [List.flatMap_cons]
      | .dir nm sub =>
        cases sub with
        | none =>
          simp only
          rw [ih dirPath rest _ hwr]
          simp [List.flatMap_cons, scanTreeNode]
        | some l =>
          have hwl : FS.weightList l ≤ fuel := by
            simp only [FS.weightList, FS.weight] at hw
            omega
          simp only
          have hchild : finishDir (dirPath ++ "/" ++ nm)
              (scanEntriesF (fun _ => false) K Kg fuel (dirPath ++ "/" ++ nm) l
                (DirAcc.init
                  { files := acc.st.files, dirs := acc.st.dirs + 1
                    bytesScanned := acc.st.bytesScanned
                    extStats := acc.st.extStats, globalTop := acc.st.globalTop
                    polls := acc.st.polls + 1 + 1 }))
              = scanTreeNode K Kg (dirPath ++ "/" ++ nm) (some l) := by
            obtain ⟨i₁, i₂, i₃, i₄, i₅⟩ :=
              scanEntriesF_node_congr K Kg fuel (FS.weightList l)
                (dirPath ++ "/" ++ nm) l [] 0 [] 0 0
                { files := acc.st.files, dirs := acc.st.dirs + 1
                  bytesScanned := acc.st.bytesScanned
                  extStats := acc.st.extStats, globalTop := acc.st.globalTop
                  polls := acc.st.polls + 1 + 1 }
                ScanState.init hwl (le_refl _)
            simp only [scanTreeNode, scanEntries]
            exact finishDir_congr _ _ _ i₁ i₂ i₃ i₄ i₅
          rw [hchild, ih dirPath rest _ hwr]
          simp [List.flatMap_cons, List.append_assoc]

theorem FS_weight_le_of_mem {e : FS} {l : List FS} (h : e ∈ l) :
    FS.weight e ≤ FS.weightList l := by
  induction l with
  | nil => simp at h
  | cons x xs ih =>
    rcases List.mem_cons.mp h with rfl | h₁
    · simp [FS.weightList]
      omega
    · have := ih h₁
      simp [FS.weightList]
      omega

theorem mem_allNodes (nm p : String) (d : Bool) (s : Int) (c : List Node)
    (n : Node) :
    n ∈ (Node.mk nm p d s c).allNodes
      ↔ n = .mk nm p d s c ∨ ∃ x ∈ c, n ∈ x.allNodes := by
  simp [Node.allNodes, List.mem_flatten]

theorem allNodes_leaf (nm p : String) (d : Bool) (s : Int) (n : Node) :
    n ∈ (Node.mk nm p d s []).allNodes ↔ n = .mk nm p d s [] := by
  simp [Node.allNodes]

theorem map_path_flatMap (K Kg : Int) (pref : String) (l : List FS) :
    ((l.flatMap fun e =>
        match e with
        | .dir nm sub => [scanTreeNode K Kg (pref ++ "/" ++ nm) sub]
        | _ => []).map Node.path)
      = l.flatMap fun e =>
          match e with
          | .dir nm _ => [pref ++ "/" ++ nm]
          | _ => [] := by
  induction l with
  | nil => rfl
  | cons e rest ih =>
    cases e <;> simp [List.flatMap_cons, ih, scanTreeNode_path]

theorem isDir_flatMap (K Kg : Int) (pref : String) (l : List FS) :
    ∀ d ∈ (l.flatMap fun e =>
        match e with
        | .dir nm sub => [scanTreeNode K Kg (pref ++ "/" ++ nm) sub]
        | _ => []), d.isDir = true := by
  intro d hd
  rcases List.mem_flatMap.mp hd with ⟨e, hel, hde⟩
  match e with
  | .file nm sz => simp at hde
  | .skipped nm => simp at hde
  | .dir nm sub =>
    simp at hde
    rw [hde]
    exact scanTreeNode_isDir K Kg _ sub

/-- The node `finishDir` builds has the claimed children layout: the
accumulated subdirectory nodes first, then the retained files sorted by
size non-increasing, then at most one overflow node. -/
theorem finishDir_ordered (p : String) (acc : DirAcc) (sp : List String)
    (hds : acc.children.map Node.path = sp)
    (hdir : ∀ d ∈ acc.children, d.isDir = true) :
    orderedChildren (finishDir p acc) sp := by
  have hfl : ∀ f ∈ (sortDesc (fun t => t.1) acc.localTop).map
      (fun t => Node.mk t.2.1 t.2.2 false t.1 []), f.isDir = false := by
    intro f hf
    rcases List.mem_map.mp hf with ⟨t, _, hft⟩
    rw [← hft]
    rfl
  have hpw : ((sortDesc (fun t => t.1) acc.localTop).map
      (fun t => Node.mk t.2.1 t.2.2 false t.1 [])).Pairwise
      (fun a b => b.size ≤ a.size) := by
    refine List.Pairwise.map _ ?_ (sortDesc_pairwise (fun t => t.1) acc.localTop)
    intro a b hab
    simpa [Node.size] using hab
  unfold finishDir
  by_cases hov : max 0 (acc.lfc - (acc.localTop.length : Int)) > 0 ∧ acc.lob > 0
  · refine ⟨acc.children,
      (sortDesc (fun t => t.1) acc.localTop).map
        (fun t => Node.mk t.2.1 t.2.2 false t.1 []),
      [Node.mk ("… другие файлы ("
          ++ toString (max 0 (acc.lfc - (acc.localTop.length : Int))) ++ ")") p
        false acc.lob []],
      ?_, hds, hdir, hfl, hpw, Or.inr ⟨_, rfl, rfl⟩⟩
    simp only [Node.children]
    rw [if_pos hov]
  · refine ⟨acc.children,
      (sortDesc (fun t => t.1) acc.localTop).map
        (fun t => Node.mk t.2.1 t.2.2 false t.1 []),
      [], ?_, hds, hdir, hfl, hpw, Or.inl rfl⟩
    simp only [Node.children]
    rw [if_neg hov]

theorem scanTreeNode_ordered (K Kg : Int) (p : String)
    (sub : Option (List FS)) :
    orderedChildren (scanTreeNode K Kg p sub) (dirPathsOf p sub) := by
  cases sub with
  | none =>
    exact ⟨[], [], [], by simp [scanTreeNode, emptyDirNode, Node.children],
      by simp [dirPathsOf], by simp, by simp, by simp, Or.inl rfl⟩
  | some l =>
    have hch := scanEntriesF_children K Kg (FS.weightList l) p l
      (DirAcc.init ScanState.init) (le_refl _)
    simp only [scanTreeNode, scanEntries]
    refine finishDir_ordered p _ _ ?_ ?_
    · rw [hch]
      simp only [DirAcc.init, List.nil_append]
      exact map_path_flatMap K Kg p l
    · rw [hch]
      simp only [DirAcc.init, List.nil_append]
      exact isDir_flatMap K Kg p l

/-- Every node of a pure scanned subtree is itself a scanned directory
node or a childless file node. -/
theorem scanTree_allNodes (K Kg : Int) :
    ∀ (w : Nat) (p : String) (sub : Option (List FS)),
      (match sub with | none => 0 | some l => FS.weightList l) ≤ w →
      ∀ n ∈ (scanTreeNode K Kg p sub).allNodes,
        (∃ q sub₂, n = scanTreeNode K Kg q sub₂)
        ∨ (n.isDir = false ∧ n.children = []) := by
  intro w
  induction w with
  | zero =>
    intro p sub hw n hn
    match sub, hw with
    | none, hw =>
      left
      refine ⟨p, none, ?_⟩
      simpa [scanTreeNode, emptyDirNode] using
        (allNodes_leaf _ _ _ _ n).mp (by simpa [scanTreeNode, emptyDirNode] using hn)
    | some l, hw =>
      have hw₂ : FS.weightList l ≤ 0 := hw
      exact absurd hw₂ (by have := FS_weightList_pos l; omega)
  | succ w ih =>
    intro p sub hw n hn
    match sub with
    | none =>
      left
      refine ⟨p, none, ?_⟩
      simpa [scanTreeNode, emptyDirNode] using
        (allNodes_leaf _ _ _ _ n).mp (by simpa [scanTreeNode, emptyDirNode] using hn)
    | some l =>
      have hch := scanEntriesF_children K Kg (FS.weightList l) p l
        (DirAcc.init ScanState.init) (le_refl _)
      have hn₂ := hn
      rw [show scanTreeNode K Kg p (some l)
          = finishDir p (scanEntries (fun _ => false) K Kg p l
              (DirAcc.init ScanState.init)) from rfl] at hn₂
      unfold finishDir at hn₂
      rw [mem_allNodes] at hn₂
      rcases hn₂ with rfl | ⟨x, hx, hnx⟩
      · left
        exact ⟨p, some l, rfl⟩
      · rcases List.mem_append.mp hx with hx₁ | hxov
        · rcases List.mem_append.mp hx₁ with hxds | hxfl
          · -- a subdirectory child
            have hch₂ : (scanEntries (fun _ => false) K Kg p l
                (DirAcc.init ScanState.init)).children
                = (DirAcc.init ScanState.init).children ++
                  l.flatMap (fun e =>
                    match e with
                    | .dir nm sub => [scanTreeNode K Kg (p ++ "/" ++ nm) sub]
                    | _ => []) := hch
            rw [hch₂] at hxds
            simp only [DirAcc.init, List.nil_append] at hxds
            rcases List.mem_flatMap.mp hxds with ⟨e, hel, hxe⟩
            match e, hxe with
            | .dir nm sub₂, hxe =>
              simp at hxe
              subst hxe
              have hwe := FS_weight_le_of_mem hel
              have hwl : FS.weightList l ≤ w + 1 := hw
              refine ih (p ++ "/" ++ nm) sub₂ ?_ n hnx
              cases sub₂ with
              | none => exact Nat.zero_le w
              | some l₂ =>
                show FS.weightList l₂ ≤ w
                simp only [FS.weight] at hwe
                omega
          · -- a retained file child
            rcases List.mem_map.mp hxfl with ⟨t, _, hxt⟩
            right
            rw [← hxt] at hnx
            have := (allNodes_leaf _ _ _ _ n).mp hnx
            rw [this]
            exact ⟨rfl, rfl⟩
        · -- the overflow child
          right
          have hxo : x = Node.mk ("… другие файлы ("
              ++ toString (max 0 ((scanEntries (fun _ => false) K Kg p l
                (DirAcc.init ScanState.init)).lfc
                - ((scanEntries (fun _ => false) K Kg p l
                  (DirAcc.init ScanState.init)).localTop.length : Int))) ++ ")")
              p false
              (scanEntries (fun _ => false) K Kg p l
                (DirAcc.init ScanState.init)).lob [] := by
            by_cases hov : max 0 ((scanEntries (fun _ => false) K Kg p l
                  (DirAcc.init ScanState.init)).lfc
                - ((scanEntries (fun _ => false) K Kg p l
                  (DirAcc.init ScanState.init)).localTop.length : Int)) > 0
                ∧ (scanEntries (fun _ => false) K Kg p l
                  (DirAcc.init ScanState.init)).lob > 0
            · rw [if_pos hov] at hxov
              simpa using hxov
            · rw [if_neg hov] at hxov
              simp at hxov
          rw [hxo] at hnx
          have := (allNodes_leaf _ _ _ _ n).mp hnx
          rw [this]
          exact ⟨rfl, rfl⟩

theorem mem_allNodes_cases (root n : Node) (h : n ∈ root.allNodes) :
    n = root ∨ ∃ x ∈ root.children, n ∈ x.allNodes := by
  cases root with
  | mk nm p d s c => exact (mem_allNodes nm p d s c n).mp h

/-- The root loop appends, in encounter order, the pure scan of each
root path. -/
theorem scanRoots_children (K Kg : Int) (resolve : String → Option (List FS)) :
    ∀ (ps : List String) (children : List Node) (size : Int) (st : ScanState),
      (scanRoots (fun _ => false) K Kg resolve ps children size st).1
        = children ++ ps.map (fun p => scanTreeNode K Kg p (resolve p)) := by
  intro ps
  induction ps with
  | nil => intro children size st; simp [scanRoots]
  | cons p rest ih =>
    intro children size st
    simp only [scanRoots, pollCancel_eq, Bool.false_eq_true, if_false,
      scanDirRoot]
    rcases hres : resolve p with _ | l
    · simp only [hres]
      rw [ih]
      simp [hres, scanTreeNode]
    · simp only [hres, scanEntries]
      have hchild : finishDir p
          (scanEntriesF (fun _ => false) K Kg (FS.weightList l) p l
            (DirAcc.init
              { files := st.files, dirs := st.dirs
                bytesScanned := st.bytesScanned
                extStats := st.extStats, globalTop := st.globalTop
                polls := st.polls + 1 + 1 }))
          = scanTreeNode K Kg p (some l) := by
        obtain ⟨i₁, i₂, i₃, i₄, i₅⟩ :=
          scanEntriesF_node_congr K Kg (FS.weightList l) (FS.weightList l)
            p l [] 0 [] 0 0
            { files := st.files, dirs := st.dirs
              bytesScanned := st.bytesScanned
              extStats := st.extStats, globalTop := st.globalTop
              polls := st.polls + 1 + 1 }
            ScanState.init (le_refl _) (le_refl _)
        simp only [scanTreeNode, scanEntries]
        exact finishDir_congr _ _ _ i₁ i₂ i₃ i₄ i₅
      rw [hchild, ih]
      simp [hres]

/-- C10: in every tree an uncancelled scan produces, the root's children
are the scans of the root paths in encounter order, and every node is
either the synthetic root, a directory node equal to the pure scan of a
concrete path and listing — whose children are its subdirectory nodes
first (paths in listing encounter order), then the retained files sorted
by size non-increasing, then at most one synthetic overflow node, last —
or a childless file node. -/
theorem scan_children_layout (resolve : String → Option (List FS))
    (paths : List String) (K Kg : Int) (res : ScanResult)
    (h : scan_paths resolve paths (fun _ => false) K Kg = .ok res) :
    orderedChildren res.root (normalizePaths paths)
    ∧ res.root.children
        = (normalizePaths paths).map (fun p => scanTreeNode K Kg p (resolve p))
    ∧ ∀ n ∈ res.root.allNodes,
        n = res.root
        ∨ (∃ p sub, n = scanTreeNode K Kg p sub
            ∧ orderedChildren n (dirPathsOf p sub))
        ∨ (n.isDir = false ∧ n.children = []) := by
  rcases hps : normalizePaths paths with _ | ⟨p₀, ps⟩
  · rw [scan_paths, hps] at h
    exact absurd h (by simp)
  · rw [scan_paths, hps] at h
    simp only [Except.ok.injEq] at h
    have hch := scanRoots_children K Kg resolve (p₀ :: ps) [] 0 ScanState.init
    simp only [List.nil_append] at hch
    subst h
    have hch₂ : (Node.mk
        (if (p₀ :: ps).length > 1 then "Этот компьютер"
          else
            if pyBasename (pyRstripSlashes p₀) = "" then p₀
            else pyBasename (pyRstripSlashes p₀))
        (String.intercalate ";" (p₀ :: ps)) true
        (scanRoots (fun _ => false) K Kg resolve (p₀ :: ps) [] 0
          ScanState.init).2.1
        (scanRoots (fun _ => false) K Kg resolve (p₀ :: ps) [] 0
          ScanState.init).1).children
        = (p₀ :: ps).map (fun p => scanTreeNode K Kg p (resolve p)) := by
      simpa [Node.children] using hch
    refine ⟨?_, ?_, ?_⟩
    · refine ⟨(p₀ :: ps).map (fun p => scanTreeNode K Kg p (resolve p)),
        [], [], by simpa using hch₂, ?_, ?_, by simp, by simp, Or.inl rfl⟩
      · rw [List.map_map]
        have hfun : (Node.path ∘ fun p => scanTreeNode K Kg p (resolve p))
            = fun p => p := by
          funext q
          simp [Function.comp, scanTreeNode_path]
        rw [hfun]
        exact List.map_id' _
      · intro d hd
        rcases List.mem_map.mp hd with ⟨q, _, hdq⟩
        rw [← hdq]
        exact scanTreeNode_isDir K Kg q (resolve q)
    · exact hch₂
    · intro n hn
      rcases mem_allNodes_cases _ n hn with rfl | ⟨x, hx, hnx⟩
      · exact Or.inl rfl
      · rw [hch₂] at hx
        rcases List.mem_map.mp hx with ⟨q, _, hxq⟩
        subst hxq
        rcases scanTree_allNodes K Kg
            (match resolve q with | none => 0 | some l => FS.weightList l)
            q (resolve q) (le_refl _) n hnx with ⟨q₂, sub₂, rfl⟩ | hleaf
        · exact Or.inr (Or.inl ⟨q₂, sub₂, rfl,
            scanTreeNode_ordered K Kg q₂ sub₂⟩)
        · exact Or.inr (Or.inr hleaf)

/-- Witness for C10 at a concrete nested scan: the root's children are
exactly the pure scans of the root paths, in encounter order. -/
theorem scan_children_layout_witness :
    (Node.mk "r" "r" true 12
      [.mk "r" "r" true 12
        [.mk "d" "r/d" true 7 [.mk "y" "r/d/y" false 7 []],
         .mk "e" "r/e" true 0 [],
         .mk "x.TXT" "r/x.TXT" false 5 []]]).children
      = (normalizePaths ["r"]).map
          (fun p => scanTreeNode 80 400 p (fsNested p)) :=
  (scan_children_layout fsNested ["r"] 80 400
    { root := .mk "r" "r" true 12
        [.mk "r" "r" true 12
          [.mk "d" "r/d" true 7 [.mk "y" "r/d/y" false 7 []],
           .mk "e" "r/e" true 0 [],
           .mk "x.TXT" "r/x.TXT" false 5 []]]
      ext_stats := [(".txt", 5, 1), ("<без расширения>", 7, 1)]
      top_files := [(7, "r/d/y"), (5, "r/x.TXT")]
      scanned_paths := ["r"]
      files := 2, dirs := 2, bytes_scanned := 12, elapsed_sec := 0 } rfl).2.1

/-! ## Treemap refinement: the spec algorithm vs the code (C7) -/

/-- `_worst` agrees with the spec's worst-ratio formula. -/
theorem worst_eq_spec (row : List ℚ) (w : ℚ) : worstSpec row w = worst row w := by
  cases row <;> rfl

/-- The spec's horizontal row placement is the code's. -/
theorem layoutH_eq_spec : ∀ (row : List ℚ) (x y t : ℚ),
    layoutHSpec row x y t = layoutH row x y t
  | [], _, _, _ => rfl
  | a :: rest, x, y, t => by
    simp only [layoutH, layoutHSpec]
    rw [layoutH_eq_spec]

/-- The spec's vertical row placement is the code's. -/
theorem layoutV_eq_spec : ∀ (row : List ℚ) (x y t : ℚ),
    layoutVSpec row x y t = layoutV row x y t
  | [], _, _, _ => rfl
  | a :: rest, x, y, t => by
    simp only [layoutV, layoutVSpec]
    rw [layoutV_eq_spec]

/-- The spec's row layout (thickness, contiguous placement, shrinking of
the remaining rectangle) is exactly `_layout_row`. -/
theorem layoutRow_eq_spec (row : List ℚ) (rect : Rect) (b : Bool) :
    layoutRowSpec row rect b = layoutRow row rect b := by
  simp only [layoutRow, layoutRowSpec, layoutH_eq_spec, layoutV_eq_spec]

/-- The source's laying direction as a `dirH` parameter. -/
theorem sourceRowDir_eq (w h : ℚ) : sourceRowDir w h = decide (w ≥ h) := rfl

/-- The spec loop instantiated with the source's laying direction is the
code's loop. -/
theorem sqLoopSpec_eq (rest row : List (ℚ × Node)) (rem : Rect)
    (out : List (Rect × Node)) :
    sqLoopSpec sourceRowDir rest row rem out = sqLoop rest row rem out := by
  induction rest, row, rem, out using sqLoop.induct with
  | case1 row rem out hrow =>
    rw [sqLoopSpec, sqLoop.eq_def]
    simp only [if_pos hrow]
  | case2 row rem out hrow horizontal laid rem' hlr =>
    have hlr' : layoutRow (List.map Prod.fst row) rem (decide (rem.w ≥ rem.h))
        = (laid, rem') := hlr
    rw [sqLoopSpec, sqLoop.eq_def]
    simp only [if_neg hrow, layoutRow_eq_spec, sourceRowDir_eq, hlr']
  | case3 row rem out a n rest₁ hrow ih =>
    rw [sqLoopSpec, sqLoop.eq_def]
    simp only [if_pos hrow]
    exact ih
  | case4 row rem out a n rest₁ hrow s e hNew =>
    have hNew' : worst (List.map Prod.fst (row ++ [(a, n)])) (shortSide rem)
        = Except.error e := hNew
    rw [sqLoopSpec, sqLoop.eq_def]
    simp only [if_neg hrow, worst_eq_spec, hNew']
  | case5 row rem out a n rest₁ hrow s wNew hNew e hOld =>
    have hNew' : worst (List.map Prod.fst (row ++ [(a, n)])) (shortSide rem)
        = Except.ok wNew := hNew
    have hOld' : worst (List.map Prod.fst row) (shortSide rem)
        = Except.error e := hOld
    rw [sqLoopSpec, sqLoop.eq_def]
    simp only [if_neg hrow, worst_eq_spec, hNew', hOld']
  | case6 row rem out a n rest₁ hrow s wNew hNew wOld hOld hgt horizontal laid rem' hlr ih =>
    have hNew' : worst (List.map Prod.fst (row ++ [(a, n)])) (shortSide rem)
        = Except.ok wNew := hNew
    have hOld' : worst (List.map Prod.fst row) (shortSide rem)
        = Except.ok wOld := hOld
    have hlr' : layoutRow (List.map Prod.fst row) rem (decide (rem.w ≥ rem.h))
        = (laid, rem') := hlr
    rw [sqLoopSpec, sqLoop.eq_def]
    simp only [if_neg hrow, worst_eq_spec, hNew', hOld', if_pos hgt,
      layoutRow_eq_spec, sourceRowDir_eq, hlr']
    exact ih
  | case7 row rem out a n rest₁ hrow s wNew hNew wOld hOld hgt ih =>
    have hNew' : worst (List.map Prod.fst (row ++ [(a, n)])) (shortSide rem)
        = Except.ok wNew := hNew
    have hOld' : worst (List.map Prod.fst row) (shortSide rem)
        = Except.ok wOld := hOld
    rw [sqLoopSpec, sqLoop.eq_def]
    simp only [if_neg hrow, worst_eq_spec, hNew', hOld', if_neg hgt]
    exact ih

/-- On a list of positive-size nodes the code's `_normalize_sizes`
computes the spec's `size / total * area` formula. -/
theorem normalize_eq_spec (l : List Node) (area : ℚ)
    (hpos : ∀ n ∈ l, 0 < n.size) :
    normalizeSizes l area = normalizeSpec l area := by
  cases l with
  | nil => rfl
  | cons a l' =>
    have hmap : (a :: l').map (fun n => max 0 n.size)
        = (a :: l').map Node.size :=
      List.map_congr_left fun n hn => max_eq_right (le_of_lt (hpos n hn))
    have htot : 0 < ((a :: l').map Node.size).sum :=
      List.sum_pos _ (by
        intro s hs
        rcases List.mem_map.mp hs with ⟨n, hn, rfl⟩
        exact hpos n hn) (by simp)
    simp only [normalizeSizes, normalizeSpec, hmap, if_neg (ne_of_gt htot)]
    exact List.map_congr_left fun n hn => by
      rw [max_eq_right (le_of_lt (hpos n hn))]

/-- **C7** (amended): `squarify` follows the spec's row-building
algorithm exactly — size-descending processing, the stated worst-ratio
formula evaluated against the shorter side of the remaining rectangle,
append only while the worst ratio does not increase, rows spanning the
remaining rectangle with every item exactly filling the row's thickness —
except for the claim's last sentence: every finalized row is laid along
whichever dimension of the remaining rectangle is *longer*
(`horizontal = remaining.w >= remaining.h`), not shorter. -/
theorem squarify_eq_spec (nodes : List Node) (x y w h : ℚ) :
    squarifySpec sourceRowDir nodes x y w h = squarify nodes x y w h := by
  simp only [squarify, squarifySpec]
  rw [← normalize_eq_spec, sqLoopSpec_eq]
  intro n hn
  have := (sortDesc_perm Node.size (nodes.filter fun n => n.size > 0)).mem_iff.mp hn
  have := List.mem_filter.mp this
  simpa using this.2


/-- C7 (counterexample): two equal-size children in a wide 4×2 target
rectangle.  The code lays every finalized row along the *longer*
dimension of the remaining rectangle and produces two 4×1 slivers; the
claim's shorter-dimension rule would produce two 2×2 squares. -/
theorem squarify_longer_side_counterexample :
    squarify [leafNode "a" 1, leafNode "b" 1] 0 0 4 2
      = .ok [(⟨0, 0, 4, 1⟩, leafNode "a" 1), (⟨0, 1, 4, 1⟩, leafNode "b" 1)]
    ∧ squarifySpec claimRowDir [leafNode "a" 1, leafNode "b" 1] 0 0 4 2
      = .ok [(⟨0, 0, 2, 2⟩, leafNode "a" 1), (⟨2, 0, 2, 2⟩, leafNode "b" 1)]
    ∧ squarify [leafNode "a" 1, leafNode "b" 1] 0 0 4 2
      ≠ squarifySpec claimRowDir [leafNode "a" 1, leafNode "b" 1] 0 0 4 2 := by
  have hcode : squarify [leafNode "a" 1, leafNode "b" 1] 0 0 4 2
      = .ok [(⟨0, 0, 4, 1⟩, leafNode "a" 1), (⟨0, 1, 4, 1⟩, leafNode "b" 1)] := by
    have hns : sortDesc Node.size
        ([leafNode "a" 1, leafNode "b" 1].filter fun n => n.size > 0)
        = [leafNode "a" 1, leafNode "b" 1] := rfl
    have hareas : normalizeSizes [leafNode "a" 1, leafNode "b" 1] ((4 : ℚ) * 2)
        = [4, 4] := by
      norm_num [normalizeSizes, leafNode, Node.size]
    have hshort : shortSide ⟨0, 0, 4, 2⟩ = 2 := by
      norm_num [shortSide, min_def]
    have hw44 : worst [4, 4] 2 = .ok (((4 : ℚ) : WithTop ℚ)) := by
      norm_num [worst, pyDiv, max_def, min_def]
    have hw4 : worst [4] 2 = .ok (((1 : ℚ) : WithTop ℚ)) := by
      norm_num [worst, pyDiv, max_def, min_def]
    have hlay1 : layoutRow [4] ⟨0, 0, 4, 2⟩ true = ([⟨0, 0, 4, 1⟩], ⟨0, 1, 4, 1⟩) := by
      norm_num [layoutRow, layoutH, max_def]
    have hlay2 : layoutRow [4] ⟨0, 1, 4, 1⟩ true = ([⟨0, 1, 4, 1⟩], ⟨0, 2, 4, 0⟩) := by
      norm_num [layoutRow, layoutH, max_def]
    have step1 : sqLoop [(4, leafNode "a" 1), (4, leafNode "b" 1)] [] ⟨0, 0, 4, 2⟩ []
        = sqLoop [(4, leafNode "b" 1)] [(4, leafNode "a" 1)] ⟨0, 0, 4, 2⟩ [] := by
      rw [sqLoop.eq_def]; simp
    have step2 : sqLoop [(4, leafNode "b" 1)] [(4, leafNode "a" 1)] ⟨0, 0, 4, 2⟩ []
        = sqLoop [(4, leafNode "b" 1)] [] ⟨0, 1, 4, 1⟩
            [(⟨0, 0, 4, 1⟩, leafNode "a" 1)] := by
      rw [sqLoop.eq_def]
      norm_num [hshort, hw44, hw4, hlay1, WithTop.coe_lt_coe]
    have step3 : sqLoop [(4, leafNode "b" 1)] [] ⟨0, 1, 4, 1⟩
          [(⟨0, 0, 4, 1⟩, leafNode "a" 1)]
        = sqLoop [] [(4, leafNode "b" 1)] ⟨0, 1, 4, 1⟩
            [(⟨0, 0, 4, 1⟩, leafNode "a" 1)] := by
      rw [sqLoop.eq_def]; simp
    have step4 : sqLoop [] [(4, leafNode "b" 1)] ⟨0, 1, 4, 1⟩
          [(⟨0, 0, 4, 1⟩, leafNode "a" 1)]
        = .ok [(⟨0, 0, 4, 1⟩, leafNode "a" 1), (⟨0, 1, 4, 1⟩, leafNode "b" 1)] := by
      rw [sqLoop.eq_def]
      norm_num [hlay2]
    simp only [squarify]
    rw [hns, hareas]
    simp only [List.zip_cons_cons, List.zip_nil_right]
    rw [step1, step2, step3, step4]
  have hspec : squarifySpec claimRowDir [leafNode "a" 1, leafNode "b" 1] 0 0 4 2
      = .ok [(⟨0, 0, 2, 2⟩, leafNode "a" 1), (⟨2, 0, 2, 2⟩, leafNode "b" 1)] := by
    have hns : sortDesc Node.size
        ([leafNode "a" 1, leafNode "b" 1].filter fun n => n.size > 0)
        = [leafNode "a" 1, leafNode "b" 1] := rfl
    have hareas : normalizeSpec [leafNode "a" 1, leafNode "b" 1] ((4 : ℚ) * 2)
        = [4, 4] := by
      norm_num [normalizeSpec, leafNode, Node.size]
    have hshort : shortSide ⟨0, 0, 4, 2⟩ = 2 := by
      norm_num [shortSide, min_def]
    have hw44 : worstSpec [4, 4] 2 = .ok (((4 : ℚ) : WithTop ℚ)) := by
      rw [worst_eq_spec]
      norm_num [worst, pyDiv, max_def, min_def]
    have hw4 : worstSpec [4] 2 = .ok (((1 : ℚ) : WithTop ℚ)) := by
      rw [worst_eq_spec]
      norm_num [worst, pyDiv, max_def, min_def]
    have hlayS1 : layoutRowSpec [4] ⟨0, 0, 4, 2⟩ false
        = ([⟨0, 0, 2, 2⟩], ⟨2, 0, 2, 2⟩) := by
      norm_num [layoutRowSpec, layoutVSpec, max_def]
    have hlayS2 : layoutRowSpec [4] ⟨2, 0, 2, 2⟩ false
        = ([⟨2, 0, 2, 2⟩], ⟨4, 0, 0, 2⟩) := by
      norm_num [layoutRowSpec, layoutVSpec, max_def]
    have step1 : sqLoopSpec claimRowDir
          [(4, leafNode "a" 1), (4, leafNode "b" 1)] [] ⟨0, 0, 4, 2⟩ []
        = sqLoopSpec claimRowDir [(4, leafNode "b" 1)] [(4, leafNode "a" 1)]
            ⟨0, 0, 4, 2⟩ [] := by
      rw [sqLoopSpec.eq_def]; simp
    have step2 : sqLoopSpec claimRowDir [(4, leafNode "b" 1)]
          [(4, leafNode "a" 1)] ⟨0, 0, 4, 2⟩ []
        = sqLoopSpec claimRowDir [(4, leafNode "b" 1)] [] ⟨2, 0, 2, 2⟩
            [(⟨0, 0, 2, 2⟩, leafNode "a" 1)] := by
      rw [sqLoopSpec.eq_def]
      norm_num [hshort, hw44, hw4, hlayS1, claimRowDir, WithTop.coe_lt_coe]
    have step3 : sqLoopSpec claimRowDir [(4, leafNode "b" 1)] [] ⟨2, 0, 2, 2⟩
          [(⟨0, 0, 2, 2⟩, leafNode "a" 1)]
        = sqLoopSpec claimRowDir [] [(4, leafNode "b" 1)] ⟨2, 0, 2, 2⟩
            [(⟨0, 0, 2, 2⟩, leafNode "a" 1)] := by
      rw [sqLoopSpec.eq_def]; simp
    have step4 : sqLoopSpec claimRowDir [] [(4, leafNode "b" 1)] ⟨2, 0, 2, 2⟩
          [(⟨0, 0, 2, 2⟩, leafNode "a" 1)]
        = .ok [(⟨0, 0, 2, 2⟩, leafNode "a" 1), (⟨2, 0, 2, 2⟩, leafNode "b" 1)] := by
      rw [sqLoopSpec.eq_def]
      norm_num [hlayS2, claimRowDir]
    simp only [squarifySpec]
    rw [hns, hareas]
    simp only [List.zip_cons_cons, List.zip_nil_right]
    rw [step1, step2, step3, step4]
  refine ⟨hcode, hspec, ?_⟩
  rw [hcode, hspec]
  norm_num [Rect.mk.injEq]

/-! ## C6: area conservation of the squarified layout -/

theorem foldl_min_pos : ∀ (l : List ℚ) (a : ℚ), 0 < a → (∀ x ∈ l, 0 < x) →
    0 < l.foldl min a
  | [], _, ha, _ => ha
  | b :: l, a, ha, h => by
    simp only [List.foldl_cons]
    exact foldl_min_pos l (min a b) (lt_min ha (h b (by simp)))
      fun x hx => h x (by simp [hx])

/-- On a non-empty all-positive row and a positive side, `_worst` never
hits a zero denominator. -/
theorem worst_isOk (row : List ℚ) (w : ℚ) (hne : row ≠ [])
    (hpos : ∀ a ∈ row, 0 < a) (hw : 0 < w) :
    ∃ v, worst row w = .ok v := by
  obtain ⟨a, rest, rfl⟩ : ∃ a rest, row = a :: rest := by
    cases row with
    | nil => exact absurd rfl hne
    | cons a r => exact ⟨a, r, rfl⟩
  have hs : 0 < (a :: rest).sum := List.sum_pos _ hpos (by simp)
  have hmin : 0 < rest.foldl min a :=
    foldl_min_pos rest a (hpos a (by simp)) fun x hx => hpos x (by simp [hx])
  have h1 : (a :: rest).sum * (a :: rest).sum ≠ 0 := ne_of_gt (mul_pos hs hs)
  have h2 : w * w * rest.foldl min a ≠ 0 :=
    ne_of_gt (mul_pos (mul_pos hw hw) hmin)
  simp only [worst, pyDiv, if_neg h1, if_neg h2]
  exact ⟨_, rfl⟩

/-- `min(remaining.w, remaining.h) or 1.0` is positive on a positive
rectangle. -/
theorem shortSide_pos (r : Rect) (hw : 0 < r.w) (hh : 0 < r.h) :
    0 < shortSide r := by
  simp only [shortSide]
  split
  · norm_num
  · exact lt_min hw hh

/-- Each rectangle of a horizontal row has exactly its area. -/
theorem layoutH_zip_areas : ∀ (row : List (ℚ × Node)) (x y t : ℚ), 0 < t →
    ((layoutH (row.map Prod.fst) x y t).zip (row.map Prod.snd)).map
      (fun q => (q.1.area, q.2)) = row
  | [], _, _, _, _ => rfl
  | (a, n) :: rest, x, y, t, ht => by
    simp only [List.map_cons, layoutH, if_pos ht, List.zip_cons_cons]
    rw [layoutH_zip_areas rest (x + a / t) y t ht]
    simp [Rect.area, div_mul_cancel₀ _ (ne_of_gt ht)]

/-- Each rectangle of a vertical row has exactly its area. -/
theorem layoutV_zip_areas : ∀ (row : List (ℚ × Node)) (x y t : ℚ), 0 < t →
    ((layoutV (row.map Prod.fst) x y t).zip (row.map Prod.snd)).map
      (fun q => (q.1.area, q.2)) = row
  | [], _, _, _, _ => rfl
  | (a, n) :: rest, x, y, t, ht => by
    simp only [List.map_cons, layoutV, if_pos ht, List.zip_cons_cons]
    rw [layoutV_zip_areas rest x (y + a / t) t ht]
    simp only [Rect.area, Prod.mk.injEq, List.cons.injEq, and_true]
    field_simp

/-- `_layout_row` on a positive row inside a positive remaining
rectangle: every item gets exactly its area, and the remaining rectangle
loses exactly the row's summed area (staying positive while the row does
not exhaust it). -/
theorem layoutRow_conserve (row : List (ℚ × Node)) (rem : Rect) (b : Bool)
    (laid : List Rect) (rem' : Rect)
    (hlr : layoutRow (row.map Prod.fst) rem b = (laid, rem'))
    (hw : 0 < rem.w) (hh : 0 < rem.h)
    (hs : 0 < (row.map Prod.fst).sum)
    (hle : (row.map Prod.fst).sum ≤ rem.w * rem.h) :
    (laid.zip (row.map Prod.snd)).map (fun q => (q.1.area, q.2)) = row ∧
    rem'.w * rem'.h = rem.w * rem.h - (row.map Prod.fst).sum ∧
    ((row.map Prod.fst).sum < rem.w * rem.h → 0 < rem'.w ∧ 0 < rem'.h) := by
  cases b with
  | true =>
    simp only [layoutRow, if_true, if_pos hw, Prod.mk.injEq] at hlr
    obtain ⟨hlaid, hrem⟩ := hlr
    subst hlaid
    subst hrem
    have ht : 0 < (row.map Prod.fst).sum / rem.w := div_pos hs hw
    have hle' : (row.map Prod.fst).sum / rem.w ≤ rem.h := by
      rw [div_le_iff hw]
      linarith [hle]
    have hmax : max 0 (rem.h - (row.map Prod.fst).sum / rem.w)
        = rem.h - (row.map Prod.fst).sum / rem.w :=
      max_eq_right (by linarith)
    refine ⟨layoutH_zip_areas row rem.x rem.y _ ht, ?_, ?_⟩
    · simp only [hmax]
      field_simp
      ring
    · intro hlt
      have hlt' : (row.map Prod.fst).sum / rem.w < rem.h := by
        rw [div_lt_iff hw]
        linarith [hlt]
      refine ⟨hw, ?_⟩
      simp only [hmax]
      linarith
  | false =>
    simp only [layoutRow, if_false, Bool.false_eq_true, if_pos hh,
      Prod.mk.injEq] at hlr
    obtain ⟨hlaid, hrem⟩ := hlr
    subst hlaid
    subst hrem
    have ht : 0 < (row.map Prod.fst).sum / rem.h := div_pos hs hh
    have hle' : (row.map Prod.fst).sum / rem.h ≤ rem.w := by
      rw [div_le_iff hh]
      linarith [hle]
    have hmax : max 0 (rem.w - (row.map Prod.fst).sum / rem.h)
        = rem.w - (row.map Prod.fst).sum / rem.h :=
      max_eq_right (by linarith)
    refine ⟨layoutV_zip_areas row rem.x rem.y _ ht, ?_, ?_⟩
    · simp only [hmax]
      field_simp
    · intro hlt
      have hlt' : (row.map Prod.fst).sum / rem.h < rem.w := by
        rw [div_lt_iff hh]
        linarith [hlt]
      refine ⟨?_, hh⟩
      simp only [hmax]
      linarith

/-- Invariant of the row-building loop: when every pending area is
positive and the pending areas exactly fill the (positive) remaining
rectangle, the loop succeeds and appends one rectangle per pending item,
in order (current row first), each carrying exactly its area. -/
theorem sqLoop_conserves (rest row : List (ℚ × Node)) (rem : Rect)
    (out : List (Rect × Node)) :
    (∀ p ∈ rest ++ row, 0 < p.1) → 0 < rem.w → 0 < rem.h →
    ((rest ++ row).map Prod.fst).sum = rem.w * rem.h →
    ∃ laid, sqLoop rest row rem out = .ok (out ++ laid) ∧
      laid.map (fun q => (q.1.area, q.2)) = row ++ rest := by
  induction rest, row, rem, out using sqLoop.induct with
  | case1 row rem out hrow =>
    intro hpos hw hh hsum
    have hrow' : row = [] := by simpa [List.isEmpty_iff] using hrow
    subst hrow'
    simp only [List.nil_append, List.map_nil, List.sum_nil] at hsum
    exact absurd hsum.symm (ne_of_gt (mul_pos hw hh))
  | case2 row rem out hrow horizontal laid rem' hlr =>
    intro hpos hw hh hsum
    have hlr' : layoutRow (List.map Prod.fst row) rem (decide (rem.w ≥ rem.h))
        = (laid, rem') := hlr
    have hne : row ≠ [] := by simpa [List.isEmpty_iff] using hrow
    have hsum' : (List.map Prod.fst row).sum = rem.w * rem.h := by
      simpa using hsum
    have hs : 0 < (List.map Prod.fst row).sum :=
      List.sum_pos _
        (fun q hq => by
          rcases List.mem_map.mp hq with ⟨p, hp, rfl⟩
          exact hpos p (by simp [hp]))
        fun hmap => hne (List.map_eq_nil_iff.mp hmap)
    obtain ⟨hzip, _, _⟩ :=
      layoutRow_conserve row rem _ laid rem' hlr' hw hh hs (le_of_eq hsum')
    refine ⟨laid.zip (List.map Prod.snd row), ?_, ?_⟩
    · rw [sqLoop.eq_def]
      simp only [if_neg hrow, hlr']
    · simpa using hzip
  | case3 row rem out a n rest₁ hrow ih =>
    intro hpos hw hh hsum
    have hrow' : row = [] := by simpa [List.isEmpty_iff] using hrow
    subst hrow'
    obtain ⟨laid, h1, h2⟩ := ih
      (by
        intro p hp
        apply hpos
        simp only [List.append_nil, List.mem_cons]
        simp only [List.nil_append, List.mem_append, List.mem_cons,
          List.not_mem_nil, or_false] at hp
        tauto)
      hw hh
      (by
        simp only [List.nil_append, List.append_nil, List.map_append,
          List.sum_append, List.map_cons, List.sum_cons, List.map_nil,
          List.sum_nil] at hsum ⊢
        linarith)
    refine ⟨laid, ?_, ?_⟩
    · rw [sqLoop.eq_def]
      simpa using h1
    · simpa using h2
  | case4 row rem out a n rest₁ hrow s e hNew =>
    intro hpos hw hh hsum
    have hNew' : worst (List.map Prod.fst (row ++ [(a, n)])) (shortSide rem)
        = Except.error e := hNew
    have hposr : ∀ q ∈ (row ++ [(a, n)]).map Prod.fst, 0 < q := by
      intro q hq
      rcases List.mem_map.mp hq with ⟨p, hp, rfl⟩
      apply hpos
      simp only [List.mem_append, List.mem_cons] at hp ⊢
      tauto
    obtain ⟨v, hv⟩ := worst_isOk ((row ++ [(a, n)]).map Prod.fst)
      (shortSide rem) (by simp) hposr (shortSide_pos rem hw hh)
    rw [hNew'] at hv
    exact absurd hv (by simp)
  | case5 row rem out a n rest₁ hrow s wNew hNew e hOld =>
    intro hpos hw hh hsum
    have hOld' : worst (List.map Prod.fst row) (shortSide rem)
        = Except.error e := hOld
    have hne : row ≠ [] := by simpa [List.isEmpty_iff] using hrow
    have hposr : ∀ q ∈ row.map Prod.fst, 0 < q := by
      intro q hq
      rcases List.mem_map.mp hq with ⟨p, hp, rfl⟩
      apply hpos
      simp only [List.mem_append, List.mem_cons] at hp ⊢
      tauto
    obtain ⟨v, hv⟩ := worst_isOk (row.map Prod.fst) (shortSide rem)
      (fun hmap => hne (List.map_eq_nil_iff.mp hmap)) hposr
      (shortSide_pos rem hw hh)
    rw [hOld'] at hv
    exact absurd hv (by simp)
  | case6 row rem out a n rest₁ hrow s wNew hNew wOld hOld hgt horizontal laid rem' hlr ih =>
    intro hpos hw hh hsum
    have hne : row ≠ [] := by simpa [List.isEmpty_iff] using hrow
    have hNew' : worst (List.map Prod.fst (row ++ [(a, n)])) (shortSide rem)
        = Except.ok wNew := hNew
    have hOld' : worst (List.map Prod.fst row) (shortSide rem)
        = Except.ok wOld := hOld
    have hlr' : layoutRow (List.map Prod.fst row) rem (decide (rem.w ≥ rem.h))
        = (laid, rem') := hlr
    have hs : 0 < (List.map Prod.fst row).sum :=
      List.sum_pos _
        (fun q hq => by
          rcases List.mem_map.mp hq with ⟨p, hp, rfl⟩
          exact hpos p (by simp [hp]))
        fun hmap => hne (List.map_eq_nil_iff.mp hmap)
    have ha : 0 < a := hpos (a, n) (by simp)
    have hr₁ : 0 ≤ (List.map Prod.fst rest₁).sum :=
      List.sum_nonneg fun q hq => by
        rcases List.mem_map.mp hq with ⟨p, hp, rfl⟩
        exact le_of_lt (hpos p (by simp [hp]))
    have hsum' : a + ((List.map Prod.fst rest₁).sum
        + (List.map Prod.fst row).sum) = rem.w * rem.h := by
      simpa [List.map_append, List.sum_append] using hsum
    have hlt : (List.map Prod.fst row).sum < rem.w * rem.h := by linarith
    obtain ⟨hzip, harea, hstrict⟩ :=
      layoutRow_conserve row rem _ laid rem' hlr' hw hh hs (le_of_lt hlt)
    obtain ⟨hw', hh'⟩ := hstrict hlt
    obtain ⟨laid₂, h1, h2⟩ := ih
      (by
        intro p hp
        apply hpos
        simp only [List.append_nil, List.mem_cons] at hp
        simp only [List.mem_append, List.mem_cons]
        tauto)
      hw' hh'
      (by
        rw [harea]
        simp only [List.append_nil, List.map_cons, List.sum_cons]
        linarith)
    refine ⟨laid.zip (List.map Prod.snd row) ++ laid₂, ?_, ?_⟩
    · rw [sqLoop.eq_def]
      simp only [if_neg hrow, hNew', hOld', if_pos hgt, hlr']
      rw [h1, List.append_assoc]
    · simp only [List.map_append]
      rw [h2, hzip]
      simp
  | case7 row rem out a n rest₁ hrow s wNew hNew wOld hOld hgt ih =>
    intro hpos hw hh hsum
    have hNew' : worst (List.map Prod.fst (row ++ [(a, n)])) (shortSide rem)
        = Except.ok wNew := hNew
    have hOld' : worst (List.map Prod.fst row) (shortSide rem)
        = Except.ok wOld := hOld
    obtain ⟨laid, h1, h2⟩ := ih
      (by
        intro p hp
        apply hpos
        simp only [List.mem_append, List.mem_cons] at hp ⊢
        tauto)
      hw hh
      (by
        simp only [List.map_append, List.sum_append, List.map_cons,
          List.sum_cons, List.map_nil, List.sum_nil] at hsum ⊢
        linarith)
    refine ⟨laid, ?_, ?_⟩
    · rw [sqLoop.eq_def]
      simp only [if_neg hrow, hNew', hOld', if_neg hgt]
      exact h1
    · rw [h2, ← List.append_cons]

theorem zip_self_map (f : α → β) : ∀ l : List α,
    (l.map f).zip l = l.map fun a => (f a, a)
  | [] => rfl
  | a :: t => by simp [zip_self_map f t]

theorem sum_map_sizes_mul (c : ℚ) : ∀ l : List Node,
    (l.map fun n => (n.size : ℚ) * c).sum
      = (((l.map Node.size).sum : Int) : ℚ) * c
  | [] => by simp
  | a :: t => by
    simp only [List.map_cons, List.sum_cons, sum_map_sizes_mul c t]
    push_cast
    ring

/-- **C6**: with a positive target rectangle and a positive total size of
the positive-size children, `squarify` succeeds; its rectangles carry, in
order, exactly the normalized area `size / S * (w * h)` of their child;
the rectangle areas sum to exactly `w * h`; and the laid-out children are
exactly the positive-size children (one rectangle each, none for
non-positive children). -/
theorem squarify_area_conservation (nodes : List Node) (x y w h : ℚ)
    (hw : 0 < w) (hh : 0 < h)
    (hS : 0 < ((nodes.filter fun n => n.size > 0).map Node.size).sum) :
    ∃ out, squarify nodes x y w h = .ok out ∧
      out.map (fun q => (q.1.area, q.2))
        = (sortDesc Node.size (nodes.filter fun n => n.size > 0)).map
            (fun n => ((n.size : ℚ) * (w * h)
              / ((((nodes.filter fun n => n.size > 0).map Node.size).sum
                  : Int) : ℚ), n)) ∧
      (out.map fun q => q.1.area).sum = w * h ∧
      (out.map Prod.snd).Perm (nodes.filter fun n => n.size > 0) := by
  have hperm : (sortDesc Node.size (nodes.filter fun n => n.size > 0)).Perm
      (nodes.filter fun n => n.size > 0) := sortDesc_perm _ _
  have hposn : ∀ n ∈ sortDesc Node.size (nodes.filter fun n => n.size > 0),
      0 < n.size := by
    intro n hn
    have h₁ := hperm.mem_iff.mp hn
    have h₂ := List.mem_filter.mp h₁
    simpa using h₂.2
  have hmapsum : ((sortDesc Node.size
        (nodes.filter fun n => n.size > 0)).map Node.size).sum
      = ((nodes.filter fun n => n.size > 0).map Node.size).sum :=
    (hperm.map Node.size).sum_eq
  have hSpos : (0 : ℚ)
      < ((((nodes.filter fun n => n.size > 0).map Node.size).sum : Int) : ℚ) := by
    exact_mod_cast hS
  have hareas : normalizeSizes
        (sortDesc Node.size (nodes.filter fun n => n.size > 0)) (w * h)
      = (sortDesc Node.size (nodes.filter fun n => n.size > 0)).map
          (fun n => (n.size : ℚ) * (w * h)
            / ((((nodes.filter fun n => n.size > 0).map Node.size).sum
                : Int) : ℚ)) := by
    rw [normalize_eq_spec _ (w * h) hposn]
    simp only [normalizeSpec, hmapsum]
  have hsumf : (((sortDesc Node.size (nodes.filter fun n => n.size > 0)).map
        (fun n => ((n.size : ℚ) * (w * h)
          / ((((nodes.filter fun n => n.size > 0).map Node.size).sum
              : Int) : ℚ), n))).map Prod.fst).sum = w * h := by
    simp only [List.map_map, Function.comp_def]
    simp only [mul_div_assoc]
    rw [sum_map_sizes_mul, hmapsum]
    have hne := ne_of_gt hSpos
    field_simp
    push_cast at hne
    simp only [List.map_map] at hne
    exact mul_div_cancel_left₀ (w * h) hne
  obtain ⟨laid, hrun, hmap⟩ := sqLoop_conserves
    ((sortDesc Node.size (nodes.filter fun n => n.size > 0)).map
      (fun n => ((n.size : ℚ) * (w * h)
        / ((((nodes.filter fun n => n.size > 0).map Node.size).sum
            : Int) : ℚ), n)))
    [] ⟨x, y, w, h⟩ []
    (by
      intro p hp
      simp only [List.append_nil] at hp
      rcases List.mem_map.mp hp with ⟨n, hn, rfl⟩
      have : (0 : ℚ) < (n.size : ℚ) := by exact_mod_cast hposn n hn
      exact div_pos (mul_pos this (mul_pos hw hh)) hSpos)
    hw hh
    (by simpa using hsumf)
  refine ⟨laid, ?_, ?_, ?_, ?_⟩
  · simp only [squarify]
    rw [hareas, zip_self_map]
    simpa using hrun
  · simpa using hmap
  · have h3 : (laid.map fun q => q.1.area)
        = (laid.map fun q => (q.1.area, q.2)).map Prod.fst := by
      simp [List.map_map, Function.comp_def]
    rw [h3, hmap]
    simpa using hsumf
  · have h4 : laid.map Prod.snd
        = (laid.map fun q => (q.1.area, q.2)).map Prod.snd := by
      simp [List.map_map, Function.comp_def]
    rw [h4, hmap]
    simp only [List.nil_append, List.map_map, Function.comp_def]
    simpa using hperm

/-- Witness for C6: two children of sizes 3 and 1 in a 4×2 rectangle. -/
theorem squarify_area_conservation_witness :
    ∃ out, squarify [leafNode "a" 3, leafNode "b" 1] 0 0 4 2 = .ok out ∧
      out.map (fun q => (q.1.area, q.2))
        = (sortDesc Node.size ([leafNode "a" 3, leafNode "b" 1].filter
            fun n => n.size > 0)).map
            (fun n => ((n.size : ℚ) * (4 * 2)
              / (((([leafNode "a" 3, leafNode "b" 1].filter
                  fun n => n.size > 0).map Node.size).sum : Int) : ℚ), n)) ∧
      (out.map fun q => q.1.area).sum = 4 * 2 ∧
      (out.map Prod.snd).Perm ([leafNode "a" 3, leafNode "b" 1].filter
        fun n => n.size > 0) :=
  squarify_area_conservation [leafNode "a" 3, leafNode "b" 1] 0 0 4 2
    (by norm_num) (by norm_num) (by decide)

end DiskAtlas
